import Mathlib

/-!
# tfvar-to-tfevar: the renderers and the command pipeline

A shallow embedding of `pkg/tfvar/tfvar.go` (`WriteAsEnvVars`, `oneliner`,
`WriteAsTerraformCode`, `convertNull`) and of `cmd/cmd.go` (`rootRunE`).

Go strings and byte slices are Lean strings.  A Go panic is an explicit result
(`none`, or `Outcome.panicked`).  The `io.Writer` is a sink that records every
chunk handed to `Write` and carries a schedule of failing calls.
-/

set_option autoImplicit false

namespace Tfvar

/-! ## Tokens (hclsyntax / hclwrite) -/

/-- The token types of `hclsyntax` that `hclwrite.TokensForValue` produces, and
`TokenOther` for every other token type. -/
inductive TokenType where
  | TokenOBrace
  | TokenCBrace
  | TokenOBrack
  | TokenCBrack
  | TokenOQuote
  | TokenCQuote
  | TokenQuotedLit
  | TokenIdent
  | TokenNumberLit
  | TokenEqual
  | TokenComma
  | TokenNewline
  | TokenOther (r : Char)
  deriving DecidableEq, Repr

/-- The record `hclwrite.Token`; the field `Typ` is Go's `Type`. -/
structure Token where
  Typ : TokenType
  Bytes : String
  SpacesBefore : Nat
  deriving DecidableEq, Repr

/-- The token appended by `oneliner` in place of a newline:
`&hclwrite.Token{Type: hclsyntax.TokenComma, Bytes: []byte{','}}`. -/
def commaToken : Token := ⟨.TokenComma, ",", 0⟩

/-- The body of the `for i, t := range original` loop of `oneliner`, run at
index `i` on token `t` with `toks` the slice built so far.  The result `none` is
the run-time panic of an index out of range; Go evaluates `||` left to right and
skips `original[i+1]` when the left operand is true. -/
def onelinerStep (original : List Token) (i : Nat) (t : Token) (toks : List Token) :
    Option (List Token) :=
  if t.Typ ≠ .TokenNewline then
    some (toks ++ [t])
  else
    match i with
    | 0 => none
    | j + 1 =>
      match original[j]? with
      | none => none
      | some p =>
        if p.Typ = .TokenOBrace then
          some toks
        else
          match original[j + 2]? with
          | none => none
          | some n =>
            if n.Typ = .TokenCBrace then some toks else some (toks ++ [commaToken])

/-- The loop of `oneliner` over the tokens from index `i` on. -/
def onelinerLoop (original : List Token) : Nat → List Token → List Token → Option (List Token)
  | _, [], toks => some toks
  | i, t :: rest, toks =>
    match onelinerStep original i t toks with
    | none => none
    | some toks1 => onelinerLoop original (i + 1) rest toks1

/-- The function `oneliner` of tfvar.go. -/
def oneliner (original : List Token) : Option (List Token) :=
  onelinerLoop original 0 original []

/-- What the specification says `oneliner` computes, written from its words:
every token that is not a newline is kept, a newline right after an opening
brace or right before a closing brace is dropped, every other newline becomes
one comma token.  `prev` is the token before the current position. -/
def onelinerSpecFrom (prev : Option Token) : List Token → List Token
  | [] => []
  | t :: rest =>
    if t.Typ = .TokenNewline then
      if prev.map Token.Typ = some .TokenOBrace ∨
          rest.head?.map Token.Typ = some .TokenCBrace then
        onelinerSpecFrom (some t) rest
      else
        commaToken :: onelinerSpecFrom (some t) rest
    else
      t :: onelinerSpecFrom (some t) rest

/-- The specification of `oneliner` on a whole token sequence. -/
def onelinerSpec (original : List Token) : List Token :=
  onelinerSpecFrom none original

/-- Every newline token has a token before it and a token after it. -/
def NewlinesInside (original : List Token) : Prop :=
  ∀ (i : Nat) (t : Token), original[i]? = some t → t.Typ = .TokenNewline →
    0 < i ∧ i + 1 < original.length

/-- The assumption written in `oneliner`: a newline only occurs strictly between
an opening-brace token and a closing-brace token. -/
def NewlinesBetweenBraces (original : List Token) : Prop :=
  ∀ (i : Nat) (t : Token), original[i]? = some t → t.Typ = .TokenNewline →
    (∃ (j : Nat) (p : Token), j < i ∧ original[j]? = some p ∧ p.Typ = .TokenOBrace) ∧
    (∃ (k : Nat) (n : Token), i < k ∧ original[k]? = some n ∧ n.Typ = .TokenCBrace)

/-! ## Strings (package strings / bytes / fmt) -/

/-- Go's `unicode.IsSpace`, the cut set of `strings.TrimSpace`. -/
def isSpace (c : Char) : Bool :=
  c = '\t' || c = '\n' || c.toNat = 11 || c.toNat = 12 || c = '\r' || c = ' ' ||
  c.toNat = 0x85 || c.toNat = 0xA0 || c.toNat = 0x1680 ||
  (0x2000 ≤ c.toNat && c.toNat ≤ 0x200a) || c.toNat = 0x2028 || c.toNat = 0x2029 ||
  c.toNat = 0x202f || c.toNat = 0x205f || c.toNat = 0x3000

/-- Go's `strings.TrimSpace`. -/
def TrimSpace (s : String) : String :=
  ⟨((s.data.dropWhile isSpace).reverse.dropWhile isSpace).reverse⟩

/-- Go's `strings.TrimLeft(s, cutset)`. -/
def TrimLeft (s cutset : String) : String :=
  ⟨s.data.dropWhile fun c => cutset.data.contains c⟩

/-- Go's `strings.Join(elems, sep)`. -/
def Join : List String → String → String
  | [], _ => ""
  | [a], _ => a
  | a :: b :: rest, sep => a ++ sep ++ Join (b :: rest) sep

/-- Go's `bytes.TrimPrefix`. -/
def bytesTrimPrefix (b pre : String) : String :=
  if pre.data.isPrefixOf b.data then ⟨b.data.drop pre.data.length⟩ else b

/-- Go's `bytes.TrimSuffix`. -/
def bytesTrimSuffix (b suf : String) : String :=
  if suf.data.isSuffixOf b.data then ⟨b.data.take (b.data.length - suf.data.length)⟩ else b

/-- Go's `errors.Wrap(err, msg)`: nil stays nil. -/
def errorsWrap (err : Option String) (msg : String) : Option String :=
  err.map fun e => msg ++ ": " ++ e

/-- Byte-wise `<` on Go strings, the comparison of `vars[i].Name < vars[j].Name`. -/
def bytesLess : List Char → List Char → Bool
  | _, [] => false
  | [], _ :: _ => true
  | a :: as, b :: bs => a.toNat < b.toNat || (a = b && bytesLess as bs)

/-! ## cty types and values -/

/-- The type `cty.Type`.  `NilType` is the type of `cty.NilVal`, the default of
a variable declared without one. -/
inductive Ty where
  | NilType
  | DynamicPseudoType
  | String
  | Number
  | Bool
  | List (e : Ty)
  | Set (e : Ty)
  | Map (e : Ty)
  | Tuple (es : List Ty)
  | Object (attrs : List (String × Ty))

/-- The method `cty.Type.IsPrimitiveType`. -/
def IsPrimitiveType : Ty → Bool
  | .String => true
  | .Number => true
  | .Bool => true
  | _ => false

/-- The type `cty.Value`, restricted to wholly known values (the values of
declared defaults and of parsed variable definitions).  Numbers are modelled by
integers.  Collections list their elements in the order of `ElementIterator`. -/
inductive Value where
  | null (ty : Ty)
  | str (s : String)
  | num (n : Int)
  | bool (b : Bool)
  | list (ety : Ty) (elems : List Value)
  | set (ety : Ty) (elems : List Value)
  | tuple (elems : List Value)
  | map (ety : Ty) (entries : List (String × Value))
  | object (entries : List (String × Value))

mutual
/-- The method `cty.Value.Type`. -/
def Value.Type : Value → Ty
  | .null ty => ty
  | .str _ => .String
  | .num _ => .Number
  | .bool _ => .Bool
  | .list e _ => .List e
  | .set e _ => .Set e
  | .tuple es => .Tuple (Value.typesOf es)
  | .map e _ => .Map e
  | .object kvs => .Object (Value.attrTypesOf kvs)
/-- Element types of a tuple. -/
def Value.typesOf : List Value → List Ty
  | [] => []
  | v :: vs => v.Type :: Value.typesOf vs
/-- Attribute types of an object. -/
def Value.attrTypesOf : List (String × Value) → List (String × Ty)
  | [] => []
  | (k, v) :: kvs => (k, v.Type) :: Value.attrTypesOf kvs
end

/-- The method `cty.Value.IsNull`. -/
def Value.IsNull : Value → Bool
  | .null _ => true
  | _ => false

/-- The method `cty.Value.AsString`: the native string of a non-null value of
type string; it panics (`Except.error`, with cty's message) on any other value. -/
def Value.AsString : Value → Except String String
  | .str s => .ok s
  | .null .String => .error "value is null"
  | _ => .error "not a string"

/-- The constructor `cty.NullVal`. -/
def NullVal (ty : Ty) : Value := .null ty

/-- The constructor `cty.StringVal`. -/
def StringVal (s : String) : Value := .str s

/-- The function `convertNull` of tfvar.go. -/
def convertNull (v : Value) : Value :=
  if v.IsNull then StringVal "" else v

/-! ## hclwrite -/

/-- Type and bytes of a token: what hclwrite's formatter must leave unchanged. -/
def Token.content (t : Token) : TokenType × String := (t.Typ, t.Bytes)

/-- The parts of the external package hclwrite (and hclsyntax) that the renderers
call and that are not modelled here token by token.  `format` is hclwrite's
unexported `format`, which only changes `SpacesBefore`; `Format` is
`hclwrite.Format` on source bytes; `escapeRunes` is `escapeQuotedStringLit` on a
non-empty string; `ValidIdentifier` is `hclsyntax.ValidIdentifier`. -/
structure Hcl where
  format : List Token → List Token
  format_content : ∀ toks : List Token, (format toks).map Token.content = toks.map Token.content
  Format : String → String
  escapeRunes : String → String
  ValidIdentifier : String → Bool

/-- The function `escapeQuotedStringLit` of hclwrite: nothing for the empty string. -/
def escapeQuotedStringLit (h : Hcl) (s : String) : String :=
  if s.data.length = 0 then "" else h.escapeRunes s

/-- The tokens of a string value: the quotes, and the escaped text when it is
not empty. -/
def stringTokens (h : Hcl) (s : String) : List Token :=
  let src := escapeQuotedStringLit h s
  [⟨.TokenOQuote, "\"", 0⟩] ++
    (if src.data.length > 0 then [⟨.TokenQuotedLit, src, 0⟩] else []) ++
    [⟨.TokenCQuote, "\"", 0⟩]

mutual
/-- The function `appendTokensForValue` of hclwrite v2.6.0 (generate.go), as the
tokens it appends for `val`. -/
def appendTokensForValue (h : Hcl) : Value → List Token
  | .null _ => [⟨.TokenIdent, "null", 0⟩]
  | .bool b => [⟨.TokenIdent, if b then "true" else "false", 0⟩]
  | .num n => [⟨.TokenNumberLit, toString n, 0⟩]
  | .str s => stringTokens h s
  | .list _ es => [⟨.TokenOBrack, "[", 0⟩] ++ elementTokens h true es ++ [⟨.TokenCBrack, "]", 0⟩]
  | .set _ es => [⟨.TokenOBrack, "[", 0⟩] ++ elementTokens h true es ++ [⟨.TokenCBrack, "]", 0⟩]
  | .tuple es => [⟨.TokenOBrack, "[", 0⟩] ++ elementTokens h true es ++ [⟨.TokenCBrack, "]", 0⟩]
  | .map _ kvs =>
    [⟨.TokenOBrace, "\x7b", 0⟩] ++ (if kvs.isEmpty then [] else [⟨.TokenNewline, "\n", 0⟩]) ++
      entryTokens h kvs ++ [⟨.TokenCBrace, "\x7d", 0⟩]
  | .object kvs =>
    [⟨.TokenOBrace, "\x7b", 0⟩] ++ (if kvs.isEmpty then [] else [⟨.TokenNewline, "\n", 0⟩]) ++
      entryTokens h kvs ++ [⟨.TokenCBrace, "\x7d", 0⟩]
/-- The element loop of a list, set or tuple: a comma before every element but
the first. -/
def elementTokens (h : Hcl) : Bool → List Value → List Token
  | _, [] => []
  | first, v :: vs =>
    (if first then [] else [⟨.TokenComma, ",", 0⟩]) ++ appendTokensForValue h v ++
      elementTokens h false vs
/-- The element loop of a map or object: key, equal sign, value, newline. -/
def entryTokens (h : Hcl) : List (String × Value) → List Token
  | [] => []
  | (k, v) :: kvs =>
    (if h.ValidIdentifier k then [⟨.TokenIdent, k, 0⟩] else stringTokens h k) ++
      [⟨.TokenEqual, "=", 0⟩] ++ appendTokensForValue h v ++ [⟨.TokenNewline, "\n", 0⟩] ++
      entryTokens h kvs
end

/-- The function `hclwrite.TokensForValue`. -/
def TokensForValue (h : Hcl) (val : Value) : List Token :=
  h.format (appendTokensForValue h val)

/-- The method `Tokens.Bytes`: before each token its spaces, then its bytes. -/
def Tokens.Bytes : List Token → String
  | [] => ""
  | t :: ts => String.mk (List.replicate t.SpacesBefore ' ') ++ t.Bytes ++ Tokens.Bytes ts

/-- The tokens of the file built by `NewEmptyFile` and one
`SetAttributeValue(name, val)`: the name, the equal sign, the tokens of the
value, a newline. -/
def attributeTokens (h : Hcl) (name : String) (val : Value) : List Token :=
  [⟨.TokenIdent, name, 0⟩, ⟨.TokenEqual, "=", 0⟩] ++ TokensForValue h val ++
    [⟨.TokenNewline, "\n", 0⟩]

/-- The bytes `f.Bytes()` of that file: its tokens, formatted, written out. -/
def attributeFileBytes (h : Hcl) (name : String) (val : Value) : String :=
  Tokens.Bytes (h.format (attributeTokens h name val))

/-! ## The output sink -/

/-- An `io.Writer`: the chunks accepted so far, and for the coming calls of
`Write` whether each fails (`true`); calls beyond the schedule succeed.  A
failing call writes nothing. -/
structure Sink where
  written : List String
  fails : List Bool
  deriving DecidableEq, Repr

/-- One call of `Write` (through `io.WriteString` or `fmt.Fprintf`). -/
def Sink.Write (w : Sink) (p : String) : Sink × Option String :=
  match w.fails with
  | true :: rest => (⟨w.written, rest⟩, some "write failed")
  | false :: rest => (⟨w.written ++ [p], rest⟩, none)
  | [] => (⟨w.written ++ [p], []⟩, none)

/-- How a Go function ends: it returns its `error` (nil is `none`), or panics. -/
inductive Outcome where
  | returned (err : Option String)
  | panicked (msg : String)
  deriving DecidableEq, Repr

/-! ## pkg/tfvar/tfvar.go -/

/-- The type `configs.VariableParsingMode`. -/
inductive VariableParsingMode where
  | VariableParseLiteral
  | VariableParseHCL
  deriving DecidableEq, Repr

/-- The struct `Variable` of tfvar.go. -/
structure Variable where
  Name : String
  Value : Value
  parsingMode : VariableParsingMode

/-- The constant `varEnvPrefix`. -/
def varEnvPrefix : String := "TF_VAR_"

/-- Lines 59 to 65 of `WriteAsEnvVars`: the text put between the quotes; `none`
when `oneliner` panics. -/
def envValueText (h : Hcl) (v : Value) : Option String :=
  let val := convertNull v
  let t := TokensForValue h val
  match oneliner t with
  | none => none
  | some t =>
    let b := h.Format (Tokens.Bytes t)
    let b := bytesTrimPrefix b "\""
    let b := bytesTrimSuffix b "\""
    some b

/-- The line `fmt.Fprintf(w, "export %s%s=.%s.\n", varEnvPrefix, v.Name, string(b))`
writes, the dots standing for single quotes. -/
def exportLine (name b : String) : String :=
  "export " ++ varEnvPrefix ++ name ++ "='" ++ b ++ "'\n"

/-- The loop of `WriteAsEnvVars`; `we` is the first write error so far. -/
def WriteAsEnvVarsLoop (h : Hcl) : List Variable → Sink → Option String → Sink × Outcome
  | [], w, we => (w, .returned we)
  | v :: vs, w, we =>
    match envValueText h v.Value with
    | none => (w, .panicked "index out of range")
    | some b =>
      match we with
      | none =>
        let r := w.Write (exportLine v.Name b)
        WriteAsEnvVarsLoop h vs r.1 (errorsWrap r.2 "tfvar: unexpected writing export")
      | some e => WriteAsEnvVarsLoop h vs w (some e)

/-- The function `WriteAsEnvVars` of tfvar.go. -/
def WriteAsEnvVars (h : Hcl) (w : Sink) (vars : List Variable) : Sink × Outcome :=
  WriteAsEnvVarsLoop h vars w none

/-- The template `tfWorkspaceDataBlock` filled by
`fmt.Sprintf(tfWorkspaceDataBlock, workspace, org)`. -/
def tfWorkspaceDataBlock (workspace org : String) : String :=
  "data \"tfe_workspace\" \"" ++ workspace ++ "\" \x7b\n" ++
  "  name         = \"" ++ workspace ++ "\"\n" ++
  "  organization = \"" ++ org ++ "\"\n" ++
  "\x7d\n\n"

/-- The template `tfCodeTemplateSimple` filled with name, value and workspace. -/
def tfCodeTemplateSimple (name value workspace : String) : String :=
  "\nresource \"tfe_variable\" \"" ++ name ++ "\" \x7b\n" ++
  "  key          = \"" ++ name ++ "\"\n" ++
  "  value        = \"" ++ value ++ "\"\n" ++
  "  category     = \"terraform\"\n" ++
  "  workspace_id = data.tfe_workspace." ++ workspace ++ ".id\n" ++
  "  description  = \"\"\n" ++
  "\x7d"

/-- The template `tfCodeTemplateHcl` filled with name, HCL text and workspace. -/
def tfCodeTemplateHcl (name hclString workspace : String) : String :=
  "\nresource \"tfe_variable\" \"" ++ name ++ "\" \x7b\n" ++
  "  key          = \"" ++ name ++ "\"\n" ++
  "  value        = <<EOT\n" ++
  hclString ++ "\n" ++
  "EOT\n" ++
  "  category     = \"terraform\"\n" ++
  "  hcl          = true\n" ++
  "  workspace_id = data.tfe_workspace." ++ workspace ++ ".id\n" ++
  "  description  = \"\"\n" ++
  "\x7d"

/-- The text `hclString` of the second branch:
`strings.TrimSpace(string(f.Bytes()))`. -/
def hclString (h : Hcl) (v : Variable) : String :=
  TrimSpace (attributeFileBytes h v.Name v.Value)

/-- The body of the loop of `WriteAsTerraformCode`: the string appended to
`tfCodeArray` for `v`, or the panic of `AsString`. -/
def tfCode (h : Hcl) (workspace : String) (v : Variable) : Except String String :=
  if IsPrimitiveType v.Value.Type then
    match v.Value.AsString with
    | .error msg => .error msg
    | .ok s => .ok (tfCodeTemplateSimple v.Name s workspace)
  else
    .ok (tfCodeTemplateHcl v.Name (hclString h v) workspace)

/-- The loop `for _, v := range vars` of `WriteAsTerraformCode`, appending to
`tfCodeArray`; it stops at the first panic. -/
def tfCodeLoop (h : Hcl) (workspace : String) :
    List Variable → List String → Except String (List String)
  | [], tfCodeArray => .ok tfCodeArray
  | v :: vs, tfCodeArray =>
    match tfCode h workspace v with
    | .error msg => .error msg
    | .ok code => tfCodeLoop h workspace vs (tfCodeArray ++ [code])

/-- The function `WriteAsTerraformCode` of tfvar.go. -/
def WriteAsTerraformCode (h : Hcl) (w : Sink) (vars : List Variable) (org workspace : String) :
    Sink × Outcome :=
  let tfCodeArray : List String := List.replicate vars.length ""
  let workspaceString := tfWorkspaceDataBlock workspace org
  let r := w.Write workspaceString
  match r.2 with
  | some err => (r.1, .returned (errorsWrap (some err) "tfvar-to-tfevar: failed to write as tf code"))
  | none =>
    match tfCodeLoop h workspace vars tfCodeArray with
    | .error msg => (r.1, .panicked msg)
    | .ok tfCodeArray =>
      let tfCodeString := Join tfCodeArray "\n"
      let tfCodeString := TrimLeft tfCodeString "\n"
      let r2 := r.1.Write tfCodeString
      (r2.1, .returned (errorsWrap r2.2 "tfvar-to-tfevar: failed to write as tf code"))

/-! ## cmd/cmd.go, and the collectors it calls -/

/-- Where a raw value came from. -/
inductive SourceKind where
  | Env
  | File
  | CLIFlag
  deriving DecidableEq, Repr

/-- Modelled from the spec: the type `UnparsedVariableValue` (its Go source is not
at hand), the RawCandidate of the data model without its name: the raw text
and its provenance.  The spec's kinds AutoFile and ExplicitFile are the one kind
`File`, since `CollectFromFile` receives only the path; the path is the label. -/
structure UnparsedVariableValue where
  rawText : String
  sourceKind : SourceKind
  sourceLabel : String
  deriving DecidableEq, Repr

/-- The shared mapping `map[string]tfvar.UnparsedVariableValue`. -/
abbrev RawMap := String → Option UnparsedVariableValue

/-- The assignment `m[name] = u`. -/
def RawMap.set (m : RawMap) (name : String) (u : UnparsedVariableValue) : RawMap :=
  fun k => if k = name then some u else m k

/-- What one run reads from outside the program: the result of terraform's
`LoadConfigDir` per directory (diagnostics, or the declared variables with
their defaults, in the iteration order of the map), the environment as pairs
of name and value, the result of `LookupTFVarsFiles` per directory, the parsed
top-level attributes (name, source text) of each syntactically valid
variable-definition file, and the HCL expression evaluator. -/
structure World where
  LoadConfigDir : String → Except String (List Variable)
  Environ : List (String × String)
  LookupTFVarsFiles : String → List String
  readVarFile : String → Option (List (String × String))
  evalExpression : String → Option Value

/-- The values of the persistent flags of the command; `New` registers every one
of them, so the `Get` calls of `rootRunE` return no error. -/
structure Flags where
  autoAssign : Bool
  ignoreDefault : Bool
  vars : List String
  varFile : String
  org : String
  workspace : String

/-- The function `Load` of tfvar.go. -/
def Load (W : World) (dir : String) : Except String (List Variable) :=
  match W.LoadConfigDir dir with
  | .error diag => .error ("tfvar: loading config: " ++ diag)
  | .ok declared => .ok declared

/-- Modelled from the spec: `CollectFromEnvVars` (its Go source is not at hand)
scans the environment for names with the prefix `TF_VAR_`, strips the prefix
and inserts the raw text with source kind Env. -/
def CollectFromEnvVars (W : World) (unparseds : RawMap) : RawMap :=
  W.Environ.foldl
    (fun m kv =>
      if varEnvPrefix.data.isPrefixOf kv.1.data then
        m.set ⟨kv.1.data.drop varEnvPrefix.data.length⟩ ⟨kv.2, .Env, kv.1⟩
      else m)
    unparseds

/-- Modelled from the spec: `CollectFromFile` (its Go source is not at hand)
parses a variable-definition file; every top-level attribute becomes a candidate
whose raw text is the source text of the attribute; a file that is not
syntactically valid is the error "failed to parse" naming the path. -/
def CollectFromFile (W : World) (path : String) (unparseds : RawMap) : Except String RawMap :=
  match W.readVarFile path with
  | none => .error ("tfvar: failed to parse '" ++ path ++ "'")
  | some attrs => .ok (attrs.foldl (fun m a => m.set a.1 ⟨a.2, .File, path⟩) unparseds)

/-- The text before and the text after the first equal sign. -/
def splitAtEqual : List Char → Option (List Char × List Char)
  | [] => none
  | c :: cs =>
    if c = '=' then some ([], cs)
    else
      match splitAtEqual cs with
      | none => none
      | some (n, r) => some (c :: n, r)

/-- Modelled from the spec: `CollectFromString` (its Go source is not at hand)
parses one literal name=value; without an equal sign it is the error "bad var
string" quoting the literal; the right-hand side is stored verbatim with source
kind CLIFlag. -/
def CollectFromString (fv : String) (unparseds : RawMap) : Except String RawMap :=
  match splitAtEqual fv.data with
  | none => .error ("tfvar: bad var string '" ++ fv ++ "'")
  | some (n, r) => .ok (unparseds.set ⟨n⟩ ⟨⟨r⟩, .CLIFlag, fv⟩)

/-- Modelled from the spec: the parse of one raw text according to the parsing
mode of the variable (part of `ParseValues`, whose Go source is not at hand):
a literal is an opaque string value, an HCL expression is evaluated. -/
def parseVariableValue (W : World) (name : String) (mode : VariableParsingMode)
    (u : UnparsedVariableValue) : Except String Value :=
  match mode with
  | .VariableParseLiteral => .ok (StringVal u.rawText)
  | .VariableParseHCL =>
    match W.evalExpression u.rawText with
    | some val => .ok val
    | none => .error ("tfvar: failed to parse the value of '" ++ name ++ "' from " ++ u.sourceLabel)

/-- Modelled from the spec: `ParseValues` (its Go source is not at hand), the
value resolver: for each declared variable, in order, a raw value in the
mapping is parsed and replaces the value; with no raw value the variable is
kept; names of the mapping that match no variable are dropped. -/
def ParseValues (W : World) (unparseds : RawMap) : List Variable → Except String (List Variable)
  | [] => .ok []
  | v :: vs =>
    match unparseds v.Name with
    | none =>
      match ParseValues W unparseds vs with
      | .error e => .error e
      | .ok rest => .ok (v :: rest)
    | some u =>
      match parseVariableValue W v.Name v.parsingMode u with
      | .error e => .error e
      | .ok val =>
        match ParseValues W unparseds vs with
        | .error e => .error e
        | .ok rest => .ok (⟨v.Name, val, v.parsingMode⟩ :: rest)

/-- Insertion of a variable before the first one with a greater name. -/
def insertByName (v : Variable) : List Variable → List Variable
  | [] => [v]
  | u :: us =>
    if bytesLess v.Name.data u.Name.data then v :: u :: us else u :: insertByName v us

/-- The call `sort.Slice(vars, ...)` of `rootRunE`, by `vars[i].Name < vars[j].Name`.
The declared names are distinct (the keys of one map), so the sorted order does
not depend on the sorting algorithm. -/
def sortByName : List Variable → List Variable
  | [] => []
  | v :: vs => insertByName v (sortByName vs)

/-- Lines 119 to 124 of `rootRunE`: with `--ignore-default`, every value is
replaced by `cty.NullVal(v.Value.Type())`. -/
def replaceWithNull (ignoreDefault : Bool) (vars : List Variable) : List Variable :=
  if ignoreDefault then
    vars.map fun v => ⟨v.Name, NullVal v.Value.Type, v.parsingMode⟩
  else vars

/-- The loop over the auto-discovered files of `rootRunE`. -/
def collectFromFiles (W : World) : List String → RawMap → Except String RawMap
  | [], unparseds => .ok unparseds
  | f :: fs, unparseds =>
    match CollectFromFile W f unparseds with
    | .error err => .error err
    | .ok unparseds1 => collectFromFiles W fs unparseds1

/-- The loop over the `--var` literals of `rootRunE`. -/
def collectFromStrings : List String → RawMap → Except String RawMap
  | [], unparseds => .ok unparseds
  | fv :: fvs, unparseds =>
    match CollectFromString fv unparseds with
    | .error err => .error err
    | .ok unparseds1 => collectFromStrings fvs unparseds1

/-- Lines 131 to 166 of `rootRunE`: the mapping `unparseds` as it stands when
`ParseValues` is called, or the first error of a collector. -/
def collectUnparseds (W : World) (fl : Flags) (dir : String) : Except String RawMap :=
  let unparseds : RawMap := fun _ => none
  match (if fl.autoAssign then
      collectFromFiles W (W.LookupTFVarsFiles dir) (CollectFromEnvVars W unparseds)
    else .ok unparseds) with
  | .error err => .error err
  | .ok unparseds =>
    match collectFromStrings fl.vars unparseds with
    | .error err => .error err
    | .ok unparseds =>
      if fl.varFile ≠ "" then CollectFromFile W fl.varFile unparseds else .ok unparseds

/-- The method `rootRunE` of cmd.go, on the directory `args[0]` and the sink
`r.out`. -/
def rootRunE (h : Hcl) (W : World) (fl : Flags) (dir : String) (out : Sink) : Sink × Outcome :=
  match Load W dir with
  | .error err => (out, .returned (some err))
  | .ok vars =>
    let vars := sortByName vars
    let vars := replaceWithNull fl.ignoreDefault vars
    match collectUnparseds W fl dir with
    | .error err => (out, .returned (some err))
    | .ok unparseds =>
      match ParseValues W unparseds vars with
      | .error err => (out, .returned (some err))
      | .ok vars => WriteAsTerraformCode h out vars fl.org fl.workspace

/-- Every call of `Write` on the sink succeeds. -/
def Sink.Reliable (w : Sink) : Prop := ∀ b ∈ w.fails, b = false

/-- The text `b` is a resource block of type tfe_variable whose `workspace_id`
is the identifier of the data block of `workspace`. -/
def IsResourceBlock (workspace b : String) : Prop :=
  ∃ name body : String,
    b = "resource \"tfe_variable\" \"" ++ name ++ "\" \x7b\n" ++ body ++
      "  workspace_id = data.tfe_workspace." ++ workspace ++ ".id\n" ++
      "  description  = \"\"\n" ++ "\x7d"

/-- The resource block with a single-line value, as text: the block of
`tfCodeTemplateSimple` without the newline the template starts with. -/
def resourceBlockSimple (name value workspace : String) : String :=
  "resource \"tfe_variable\" \"" ++ name ++ "\" \x7b\n" ++
  "  key          = \"" ++ name ++ "\"\n" ++
  "  value        = \"" ++ value ++ "\"\n" ++
  "  category     = \"terraform\"\n" ++
  "  workspace_id = data.tfe_workspace." ++ workspace ++ ".id\n" ++
  "  description  = \"\"\n" ++
  "\x7d"

/-- The resource block with a heredoc value, as text: the block of
`tfCodeTemplateHcl` without the newline the template starts with. -/
def resourceBlockHcl (name body workspace : String) : String :=
  "resource \"tfe_variable\" \"" ++ name ++ "\" \x7b\n" ++
  "  key          = \"" ++ name ++ "\"\n" ++
  "  value        = <<EOT\n" ++
  body ++ "\n" ++
  "EOT\n" ++
  "  category     = \"terraform\"\n" ++
  "  hcl          = true\n" ++
  "  workspace_id = data.tfe_workspace." ++ workspace ++ ".id\n" ++
  "  description  = \"\"\n" ++
  "\x7d"

/-- The line `WriteAsEnvVars` has for one variable, as text: `oneliner` computed
by its specification. -/
def envLine (h : Hcl) (v : Variable) : String :=
  exportLine v.Name (bytesTrimSuffix (bytesTrimPrefix
    (h.Format (Tokens.Bytes (onelinerSpec (TokensForValue h (convertNull v.Value))))) "\"") "\"")

/-- The condition under which the loop body of `WriteAsTerraformCode` does not
panic on `v`: a value of primitive type is a non-null string. -/
def Renderable (v : Variable) : Prop :=
  IsPrimitiveType v.Value.Type = true → ∃ s : String, v.Value = .str s

/-- Written from the claim: the formatted literal of a value, the bytes of the
tokens `hclwrite.TokensForValue` gives it. -/
def formattedLiteral (h : Hcl) (val : Value) : String :=
  Tokens.Bytes (TokensForValue h val)

/-! ## The precedence of the sources, written from the specification -/

/-- The assignments the environment supplies: for every variable of the
environment whose name starts with `TF_VAR_`, the rest of the name and the
value. -/
def envAssignments (W : World) : List (String × UnparsedVariableValue) :=
  W.Environ.filterMap fun kv =>
    if varEnvPrefix.data.isPrefixOf kv.1.data then
      some (⟨kv.1.data.drop varEnvPrefix.data.length⟩, ⟨kv.2, .Env, kv.1⟩)
    else none

/-- The assignments a variable-definition file supplies, in the order of its
attributes. -/
def fileAssignments (W : World) (path : String) : List (String × UnparsedVariableValue) :=
  match W.readVarFile path with
  | none => []
  | some attrs => attrs.map fun a => (a.1, ⟨a.2, .File, path⟩)

/-- The assignment one `--var` literal supplies. -/
def stringAssignments (fv : String) : List (String × UnparsedVariableValue) :=
  match splitAtEqual fv.data with
  | none => []
  | some (n, r) => [(⟨n⟩, ⟨⟨r⟩, .CLIFlag, fv⟩)]

/-- The assignments of all the sources from the lowest precedence to the highest:
the environment, then the auto-discovered files in discovery order (both only
with auto-assign), then the `--var` literals in command-line order, then the
`--var-file` file. -/
def precedenceLayers (W : World) (fl : Flags) (dir : String) :
    List (String × UnparsedVariableValue) :=
  (if fl.autoAssign then
      envAssignments W ++ (W.LookupTFVarsFiles dir).flatMap (fileAssignments W)
    else []) ++
  fl.vars.flatMap stringAssignments ++
  (if fl.varFile ≠ "" then fileAssignments W fl.varFile else [])

/-- The value the last assignment to `name` in a sequence gives it. -/
def lastAssigned (name : String) :
    List (String × UnparsedVariableValue) → Option UnparsedVariableValue
  | [] => none
  | p :: rest => (lastAssigned name rest).or (if name = p.1 then some p.2 else none)

/-- All the collectors of one run succeed: with auto-assign every auto-discovered
file parses, every `--var` literal has an equal sign, the `--var-file` file
parses. -/
def CollectorsSucceed (W : World) (fl : Flags) (dir : String) : Prop :=
  (fl.autoAssign = true → ∀ f ∈ W.LookupTFVarsFiles dir, W.readVarFile f ≠ none) ∧
  (∀ fv ∈ fl.vars, splitAtEqual fv.data ≠ none) ∧
  (fl.varFile ≠ "" → W.readVarFile fl.varFile ≠ none)

/-- The error `e` is the error a call of one run returns: `Load`, a
`CollectFromFile` on an auto-discovered file (with auto-assign) or on the
`--var-file` file, a `CollectFromString` on a `--var` literal, or `ParseValues`
on the collected mapping. -/
def CallError (W : World) (fl : Flags) (dir : String) (e : String) : Prop :=
  Load W dir = .error e ∨
  (fl.autoAssign = true ∧ ∃ f ∈ W.LookupTFVarsFiles dir, ∃ m : RawMap,
    CollectFromFile W f m = .error e) ∨
  (∃ fv ∈ fl.vars, ∃ m : RawMap, CollectFromString fv m = .error e) ∨
  (fl.varFile ≠ "" ∧ ∃ m : RawMap, CollectFromFile W fl.varFile m = .error e) ∨
  (∃ (decls : List Variable) (m : RawMap),
    Load W dir = .ok decls ∧ collectUnparseds W fl dir = .ok m ∧
    ParseValues W m (replaceWithNull fl.ignoreDefault (sortByName decls)) = .error e)

/-! ## Example inputs -/

/-- A stand-in for hclwrite to evaluate the definitions on examples: its
formatter puts no space before any token, and it leaves source bytes and string
contents as they are. -/
def Hcl.plain : Hcl where
  format := fun toks => toks.map fun t => ⟨t.Typ, t.Bytes, 0⟩
  format_content := by
    intro toks
    induction toks with
    | nil => rfl
    | cons t ts _ => simp [Token.content]
  Format := fun src => src
  escapeRunes := fun s => s
  ValidIdentifier := fun _ => true

/-- A sink that has accepted nothing yet and never fails. -/
def emptySink : Sink := ⟨[], []⟩

/-- A variable with a string value, as `--var image_id=abc123` gives it. -/
def imageIdVar : Variable := ⟨"image_id", .str "abc123", .VariableParseLiteral⟩

/-- A variable with a list value, as the default `["us-west-1a"]` gives it. -/
def zoneNamesVar : Variable :=
  ⟨"availability_zone_names", .list .String [.str "us-west-1a"], .VariableParseHCL⟩

/-- A variable with a number value, as the default `3` gives it. -/
def instanceCountVar : Variable := ⟨"instance_count", .num 3, .VariableParseHCL⟩

/-- A variable with a boolean value, as the default `true` gives it. -/
def enabledVar : Variable := ⟨"enabled", .bool true, .VariableParseHCL⟩

/-- A string variable whose default was replaced by `cty.NullVal(cty.String)`. -/
def nullStringVar : Variable := ⟨"region", .null .String, .VariableParseLiteral⟩

/-- A map of two entries as `TokensForValue` lays it out: brace, newline, then
each entry followed by a newline, brace. -/
def exampleMapTokens : List Token :=
  [⟨.TokenOBrace, "\x7b", 0⟩, ⟨.TokenNewline, "\n", 0⟩,
   ⟨.TokenIdent, "a", 0⟩, ⟨.TokenEqual, "=", 1⟩, ⟨.TokenNumberLit, "1", 1⟩, ⟨.TokenNewline, "\n", 0⟩,
   ⟨.TokenIdent, "b", 0⟩, ⟨.TokenEqual, "=", 1⟩, ⟨.TokenNumberLit, "2", 1⟩, ⟨.TokenNewline, "\n", 0⟩,
   ⟨.TokenCBrace, "\x7d", 0⟩]

/-- A variable declared without a default: its value is `cty.NilVal`. -/
def imageIdDecl : Variable := ⟨"image_id", .null .NilType, .VariableParseLiteral⟩

/-- A world in which the environment, an auto-discovered file, and the file
`testdata/my.tfvars` all give `image_id` a value; `testdata/bad.tfvars` does
not parse. -/
def exampleWorld : World where
  LoadConfigDir := fun _ => .ok [zoneNamesVar, imageIdDecl]
  Environ := [("HOME", "/root"), ("TF_VAR_image_id", "from-env")]
  LookupTFVarsFiles := fun _ => ["testdata/terraform.tfvars"]
  readVarFile := fun path =>
    if path = "testdata/terraform.tfvars" then some [("image_id", "from-auto-file")]
    else if path = "testdata/my.tfvars" then some [("image_id", "from-var-file")]
    else none
  evalExpression := fun _ => none

/-- Flags of a run with auto-assign, one `--var` literal for `image_id` and the
`--var-file` file `testdata/my.tfvars`. -/
def exampleFlags : Flags where
  autoAssign := true
  ignoreDefault := false
  vars := ["image_id=from-var"]
  varFile := "testdata/my.tfvars"
  org := "example_organization"
  workspace := "example_workspace"

/-- Flags of `TestVarFileError`: the `--var-file` file does not parse. -/
def badFileFlags : Flags where
  autoAssign := false
  ignoreDefault := false
  vars := []
  varFile := "testdata/bad.tfvars"
  org := "example_organization"
  workspace := "example_workspace"

/-- Flags of `TestVarError`: a `--var` literal without an equal sign (the quotes
are part of the literal, the test splits its command line on blanks). -/
def badVarFlags : Flags where
  autoAssign := true
  ignoreDefault := false
  vars := ["'unknown'"]
  varFile := ""
  org := "example_organization"
  workspace := "example_workspace"

/-- Flags of a run with `--ignore-default` and one `--var` literal. -/
def ignoreDefaultFlags : Flags where
  autoAssign := false
  ignoreDefault := true
  vars := ["image_id=abc123"]
  varFile := ""
  org := "example_organization"
  workspace := "example_workspace"

/-! ## Lemmas on `oneliner` -/

theorem onelinerSpecFrom_no_newline (prev : Option Token) (l : List Token) :
    ∀ t ∈ onelinerSpecFrom prev l, t.Typ ≠ .TokenNewline := by
  induction l generalizing prev with
  | nil => intro t ht; simp [onelinerSpecFrom] at ht
  | cons a rest ih =>
    intro t ht
    unfold onelinerSpecFrom at ht
    split_ifs at ht with h1 h2
    · exact ih _ t ht
    · rcases List.mem_cons.mp ht with h | h
      · subst h; simp [commaToken]
      · exact ih _ t h
    · rcases List.mem_cons.mp ht with h | h
      · subst h; exact h1
      · exact ih _ t h

theorem onelinerLoop_append (original : List Token) (xs ys : List Token) (i : Nat)
    (toks : List Token) :
    onelinerLoop original i (xs ++ ys) toks =
      (onelinerLoop original i xs toks).bind (onelinerLoop original (i + xs.length) ys) := by
  induction xs generalizing i toks with
  | nil => simp [onelinerLoop]
  | cons a rest ih =>
    simp only [List.cons_append, onelinerLoop, List.length_cons]
    cases h : onelinerStep original i a toks with
    | none => simp
    | some toks1 =>
      have e : i + (rest.length + 1) = i + 1 + rest.length := by omega
      simp only [e]
      exact ih (i + 1) toks1

theorem getElem?_append_cons_length {α : Type} (a b : List α) (x : α) :
    (a ++ x :: b)[a.length]? = some x := by
  rw [List.getElem?_append_right (le_refl _)]; simp

theorem onelinerStep_newline (pre1 rest1 : List Token) (p t n : Token) (toks : List Token)
    (hnl : t.Typ = .TokenNewline) :
    onelinerStep (pre1 ++ p :: t :: n :: rest1) (pre1.length + 1) t toks =
      some (if p.Typ = .TokenOBrace ∨ n.Typ = .TokenCBrace then toks
        else toks ++ [commaToken]) := by
  have hp : (pre1 ++ p :: t :: n :: rest1)[pre1.length]? = some p :=
    getElem?_append_cons_length _ _ _
  have hn : (pre1 ++ p :: t :: n :: rest1)[pre1.length + 2]? = some n := by
    have e : pre1 ++ p :: t :: n :: rest1 = (pre1 ++ [p, t]) ++ n :: rest1 := by simp
    have l : pre1.length + 2 = (pre1 ++ [p, t]).length := by simp
    rw [e, l]
    exact getElem?_append_cons_length _ _ _
  simp only [onelinerStep, hnl, ne_eq, not_true_eq_false, if_false, hp, hn]
  by_cases h1 : p.Typ = .TokenOBrace <;> by_cases h2 : n.Typ = .TokenCBrace <;> simp [h1, h2]

theorem onelinerLoop_eq_spec (suf : List Token) :
    ∀ (pre toks : List Token), NewlinesInside (pre ++ suf) →
      onelinerLoop (pre ++ suf) pre.length suf toks =
        some (toks ++ onelinerSpecFrom pre.getLast? suf) := by
  induction suf with
  | nil => intro pre toks _; simp [onelinerLoop, onelinerSpecFrom]
  | cons t rest ih =>
    intro pre toks hin
    have hnext : pre ++ t :: rest = (pre ++ [t]) ++ rest := by simp
    have ih1 := ih (pre ++ [t])
    have hlast : (pre ++ [t]).getLast? = some t := by simp
    simp only [List.length_append, List.length_singleton, hlast, ← hnext] at ih1
    have hat : (pre ++ t :: rest)[pre.length]? = some t := getElem?_append_cons_length _ _ _
    unfold onelinerLoop onelinerSpecFrom
    by_cases hnl : t.Typ = .TokenNewline
    · obtain ⟨hpos, hlt⟩ := hin pre.length t hat hnl
      obtain ⟨pre1, p, rfl⟩ : ∃ pre1 p, pre = pre1 ++ [p] := by
        rcases List.eq_nil_or_concat pre with h | ⟨l, b, h⟩
        · subst h; simp at hpos
        · exact ⟨l, b, by simpa using h⟩
      obtain ⟨n, rest1, rfl⟩ : ∃ n rest1, rest = n :: rest1 := by
        cases rest with
        | nil => simp at hlt
        | cons n rest1 => exact ⟨n, rest1, rfl⟩
      have hstep := onelinerStep_newline pre1 rest1 p t n toks hnl
      have e : pre1 ++ [p] ++ t :: n :: rest1 = pre1 ++ p :: t :: n :: rest1 := by simp
      have l : (pre1 ++ [p]).length = pre1.length + 1 := by simp
      rw [e] at hin ih1 ⊢
      rw [l] at ih1 ⊢
      rw [hstep]
      simp only []
      rw [ih1 _ hin]
      by_cases h1 : p.Typ = .TokenOBrace <;> by_cases h2 : n.Typ = .TokenCBrace <;>
        simp [hnl, h1, h2]
    · have hstep : onelinerStep (pre ++ t :: rest) pre.length t toks = some (toks ++ [t]) := by
        simp [onelinerStep, hnl]
      rw [hstep]
      simp only []
      rw [ih1 _ hin]
      simp [hnl]

theorem oneliner_eq_spec (original : List Token) (h : NewlinesInside original) :
    oneliner original = some (onelinerSpec original) := by
  have := onelinerLoop_eq_spec original [] [] (by simpa using h)
  simpa [oneliner, onelinerSpec] using this

theorem NewlinesBetweenBraces.inside {original : List Token}
    (h : NewlinesBetweenBraces original) : NewlinesInside original := by
  intro i t hi hnl
  obtain ⟨⟨j, p, hj, _, _⟩, ⟨k, n, hk, hkn, _⟩⟩ := h i t hi hnl
  refine ⟨by omega, ?_⟩
  have : k < original.length := by
    by_contra hc
    rw [List.getElem?_eq_none (by omega)] at hkn
    cases hkn
  omega

theorem NewlinesInside.of_ends {l : List Token}
    (h1 : ∀ t : Token, l.head? = some t → t.Typ ≠ .TokenNewline)
    (h2 : ∀ t : Token, l.getLast? = some t → t.Typ ≠ .TokenNewline) : NewlinesInside l := by
  intro i t hi hnl
  have hlt : i < l.length := by
    by_contra hc
    rw [List.getElem?_eq_none (by omega)] at hi
    cases hi
  constructor
  · rcases Nat.eq_zero_or_pos i with h0 | h0
    · subst h0
      exact absurd hnl (h1 t (by rw [← hi, List.head?_eq_getElem?]))
    · exact h0
  · by_contra hc
    have hi1 : i = l.length - 1 := by omega
    exact absurd hnl (h2 t (by rw [← hi, hi1, List.getLast?_eq_getElem?]))

theorem oneliner_head_newline (t : Token) (rest : List Token) (hnl : t.Typ = .TokenNewline) :
    oneliner (t :: rest) = none := by
  simp [oneliner, onelinerLoop, onelinerStep, hnl]

theorem oneliner_last_newline (pre : List Token) (p t : Token) (hnl : t.Typ = .TokenNewline)
    (hp : p.Typ ≠ .TokenOBrace) : oneliner (pre ++ [p, t]) = none := by
  have e : pre ++ [p, t] = (pre ++ [p]) ++ [t] := by simp
  have hj : (pre ++ [p, t])[pre.length]? = some p := getElem?_append_cons_length _ _ _
  have hk : (pre ++ [p, t])[pre.length + 2]? = none := by
    rw [List.getElem?_eq_none (by simp)]
  unfold oneliner
  conv => lhs; arg 3; rw [e]
  rw [onelinerLoop_append]
  cases onelinerLoop (pre ++ [p, t]) 0 (pre ++ [p]) [] with
  | none => rfl
  | some toks =>
    simp [onelinerLoop, onelinerStep, hnl, hj, hk, hp]

/-! ## The claims on `oneliner` -/

/-- C9: on a token sequence in which every newline token has a predecessor and
a successor, `oneliner` returns (without panicking) the sequence that keeps
every other token unchanged and in order, drops a newline that directly follows
an opening brace or directly precedes a closing brace, and puts one comma token
in place of every other newline; the result holds no newline token. -/
theorem oneliner_replaces_newlines (original : List Token) (h : NewlinesInside original) :
    oneliner original = some (onelinerSpec original) ∧
    ∀ t ∈ onelinerSpec original, t.Typ ≠ .TokenNewline :=
  ⟨oneliner_eq_spec original h, onelinerSpecFrom_no_newline none original⟩

theorem oneliner_replaces_newlines_witness :
    NewlinesInside exampleMapTokens ∧
    oneliner exampleMapTokens = some
      [⟨.TokenOBrace, "\x7b", 0⟩,
       ⟨.TokenIdent, "a", 0⟩, ⟨.TokenEqual, "=", 1⟩, ⟨.TokenNumberLit, "1", 1⟩, ⟨.TokenComma, ",", 0⟩,
       ⟨.TokenIdent, "b", 0⟩, ⟨.TokenEqual, "=", 1⟩, ⟨.TokenNumberLit, "2", 1⟩,
       ⟨.TokenCBrace, "\x7d", 0⟩] := by
  have hin : NewlinesInside exampleMapTokens :=
    NewlinesInside.of_ends (by simp [exampleMapTokens]) (by simp [exampleMapTokens])
  exact ⟨hin, (oneliner_replaces_newlines exampleMapTokens hin).1.trans (by decide)⟩

/-- C10: the indexing `original[i-1]` and `original[i+1]` of `oneliner` stays in
range (no panic) on every sequence whose newlines all lie strictly between an
opening-brace token and a closing-brace token; and `oneliner` panics on a
sequence whose first token is a newline, and on a sequence whose last token is
a newline that does not directly follow an opening brace. -/
theorem oneliner_index_safety :
    (∀ original : List Token, NewlinesBetweenBraces original →
      (oneliner original).isSome = true) ∧
    (∀ (t : Token) (rest : List Token), t.Typ = .TokenNewline → oneliner (t :: rest) = none) ∧
    (∀ (pre : List Token) (p t : Token), t.Typ = .TokenNewline → p.Typ ≠ .TokenOBrace →
      oneliner (pre ++ [p, t]) = none) := by
  refine ⟨?_, oneliner_head_newline, oneliner_last_newline⟩
  intro original h
  rw [oneliner_eq_spec original h.inside]
  rfl

theorem oneliner_index_safety_witness :
    NewlinesBetweenBraces exampleMapTokens ∧
    (oneliner exampleMapTokens).isSome = true ∧
    oneliner [⟨.TokenNewline, "\n", 0⟩, ⟨.TokenIdent, "a", 0⟩] = none ∧
    oneliner [⟨.TokenIdent, "a", 0⟩, ⟨.TokenNewline, "\n", 0⟩] = none := by
  have hb : NewlinesBetweenBraces exampleMapTokens := by
    intro i t hi hnl
    have hlt : i < 11 := by
      by_contra hc
      rw [List.getElem?_eq_none (by simpa [exampleMapTokens] using hc)] at hi
      cases hi
    refine ⟨⟨0, ⟨.TokenOBrace, "\x7b", 0⟩, ?_, rfl, rfl⟩,
      ⟨10, ⟨.TokenCBrace, "\x7d", 0⟩, ?_, rfl, rfl⟩⟩
    · rcases Nat.eq_zero_or_pos i with h0 | h0
      · subst h0
        simp [exampleMapTokens] at hi
        subst hi
        simp at hnl
      · exact h0
    · rcases Nat.lt_or_ge i 10 with h10 | h10
      · exact h10
      · have : i = 10 := by omega
        subst this
        simp [exampleMapTokens] at hi
        subst hi
        simp at hnl
  exact ⟨hb, oneliner_index_safety.1 exampleMapTokens hb,
    oneliner_index_safety.2.1 ⟨.TokenNewline, "\n", 0⟩ [⟨.TokenIdent, "a", 0⟩] rfl,
    oneliner_index_safety.2.2 [] ⟨.TokenIdent, "a", 0⟩ ⟨.TokenNewline, "\n", 0⟩ rfl (by decide)⟩

/-! ## Lemmas on strings and on the sink -/

theorem Join_cons_of_ne_nil (a sep : String) (l : List String) (hl : l ≠ []) :
    Join (a :: l) sep = a ++ sep ++ Join l sep := by
  cases l with
  | nil => exact absurd rfl hl
  | cons b rest => rfl

theorem Join_map_newline (bs : List String) (hbs : bs ≠ []) :
    Join (bs.map fun b => "\n" ++ b) "\n" = "\n" ++ Join bs "\n\n" := by
  induction bs with
  | nil => exact absurd rfl hbs
  | cons b rest ih =>
    cases rest with
    | nil => rfl
    | cons c r =>
      have ih1 := ih (by simp)
      have e1 : Join ((b :: c :: r).map fun b => "\n" ++ b) "\n" =
          ("\n" ++ b) ++ "\n" ++ Join ((c :: r).map fun b => "\n" ++ b) "\n" := rfl
      have e2 : Join (b :: c :: r) "\n\n" = b ++ "\n\n" ++ Join (c :: r) "\n\n" := rfl
      rw [e1, e2, ih1]
      apply String.ext
      simp [String.data_append]

theorem Join_replicate_empty_data (n : Nat) :
    (Join (List.replicate n "") "\n").data = List.replicate (n - 1) '\n' := by
  induction n with
  | zero => rfl
  | succ k ih =>
    cases k with
    | zero => rfl
    | succ j =>
      have e : List.replicate (j + 1 + 1) "" = "" :: List.replicate (j + 1) "" := rfl
      rw [e, Join_cons_of_ne_nil _ _ _ (by simp [List.replicate_succ])]
      simp only [String.data_append, ih]
      simp [List.replicate_succ]

theorem Join_replicate_empty_append (n : Nat) (l : List String) (hl : l ≠ []) :
    (Join (List.replicate n "" ++ l) "\n").data =
      List.replicate n '\n' ++ (Join l "\n").data := by
  induction n with
  | zero => simp
  | succ k ih =>
    have e : List.replicate (k + 1) "" ++ l = "" :: (List.replicate k "" ++ l) := rfl
    rw [e, Join_cons_of_ne_nil _ _ _ (by simp [hl])]
    simp only [String.data_append, ih]
    simp [List.replicate_succ]

theorem dropWhile_newlines (n : Nat) (c : Char) (cs : List Char) (hc : c ≠ '\n') :
    (List.replicate n '\n' ++ c :: cs).dropWhile (fun x => "\n".data.contains x) = c :: cs := by
  induction n with
  | zero => simp [List.dropWhile_cons, hc]
  | succ k ih => simpa [List.replicate_succ, List.dropWhile_cons] using ih

theorem dropWhile_only_newlines (n : Nat) :
    (List.replicate n '\n').dropWhile (fun x => "\n".data.contains x) = [] := by
  induction n with
  | zero => rfl
  | succ k _ => simp [List.replicate_succ, List.dropWhile_cons]

theorem Join_head (b : String) (rest : List String) (sep : String) (c : Char) (cs : List Char)
    (hb : b.data = c :: cs) : ∃ ds, (Join (b :: rest) sep).data = c :: ds := by
  cases rest with
  | nil => exact ⟨cs, hb⟩
  | cons d r =>
    refine ⟨cs ++ sep.data ++ (Join (d :: r) sep).data, ?_⟩
    rw [Join_cons_of_ne_nil _ _ _ (by simp)]
    simp [String.data_append, hb]

/-- Joining the pre-allocated empty strings and the blocks, each with its leading
newline, and trimming the newlines on the left leaves the blocks separated by
one blank line. -/
theorem TrimLeft_Join_blocks (n : Nat) (bs : List String)
    (hb : ∀ b ∈ bs, ∃ (c : Char) (cs : List Char), b.data = c :: cs ∧ c ≠ '\n') :
    TrimLeft (Join (List.replicate n "" ++ bs.map fun b => "\n" ++ b) "\n") "\n" =
      Join bs "\n\n" := by
  apply String.ext
  cases bs with
  | nil =>
    simp only [List.map_nil, List.append_nil, TrimLeft, Join_replicate_empty_data]
    rw [dropWhile_only_newlines]
    rfl
  | cons b rest =>
    obtain ⟨c, cs, hbc, hc⟩ := hb b (by simp)
    obtain ⟨ds, hds⟩ := Join_head b rest "\n\n" c cs hbc
    simp only [TrimLeft]
    rw [Join_replicate_empty_append _ _ (by simp), Join_map_newline _ (by simp)]
    simp only [String.data_append, hds]
    have e : List.replicate n '\n' ++ ("\n".data ++ c :: ds) =
        List.replicate (n + 1) '\n' ++ c :: ds := by
      rw [List.replicate_succ']
      simp
    rw [e, dropWhile_newlines _ _ _ hc]

theorem Sink.Write_cases (w : Sink) (p : String) :
    ∃ w1 : Sink, (w.Write p = (w1, none) ∧ w1.written = w.written ++ [p]) ∨
      ∃ e, w.Write p = (w1, some e) ∧ w1.written = w.written := by
  obtain ⟨wr, fl⟩ := w
  cases fl with
  | nil => exact ⟨_, Or.inl ⟨rfl, rfl⟩⟩
  | cons f rest =>
    cases f with
    | false => exact ⟨_, Or.inl ⟨rfl, rfl⟩⟩
    | true => exact ⟨_, Or.inr ⟨_, rfl, rfl⟩⟩

theorem Sink.Write_reliable (w : Sink) (p : String) (hw : w.Reliable) :
    w.Write p = (⟨w.written ++ [p], w.fails.tail⟩, none) ∧ (w.Write p).1.Reliable := by
  obtain ⟨wr, fl⟩ := w
  cases fl with
  | nil => exact ⟨rfl, by intro b hb; simp [Sink.Write] at hb⟩
  | cons f rest =>
    have hf : f = false := hw f (by simp)
    subst hf
    refine ⟨rfl, ?_⟩
    intro b hb
    exact hw b (by simp [Sink.Write] at hb; simp [hb])

/-! ## Lemmas on `WriteAsTerraformCode` -/

theorem tfCodeTemplateSimple_eq (name value workspace : String) :
    tfCodeTemplateSimple name value workspace =
      "\n" ++ resourceBlockSimple name value workspace := by
  have e : ("\nresource \"tfe_variable\" \"" : String) =
      "\n" ++ "resource \"tfe_variable\" \"" := by decide
  unfold tfCodeTemplateSimple resourceBlockSimple
  rw [e]
  simp only [String.append_assoc]

theorem tfCodeTemplateHcl_eq (name body workspace : String) :
    tfCodeTemplateHcl name body workspace = "\n" ++ resourceBlockHcl name body workspace := by
  have e : ("\nresource \"tfe_variable\" \"" : String) =
      "\n" ++ "resource \"tfe_variable\" \"" := by decide
  unfold tfCodeTemplateHcl resourceBlockHcl
  rw [e]
  simp only [String.append_assoc]

theorem resourceBlockSimple_isResourceBlock (name value workspace : String) :
    IsResourceBlock workspace (resourceBlockSimple name value workspace) := by
  refine ⟨name, "  key          = \"" ++ name ++ "\"\n" ++ "  value        = \"" ++ value ++
    "\"\n" ++ "  category     = \"terraform\"\n", ?_⟩
  simp only [resourceBlockSimple, String.append_assoc]

theorem resourceBlockHcl_isResourceBlock (name body workspace : String) :
    IsResourceBlock workspace (resourceBlockHcl name body workspace) := by
  refine ⟨name, "  key          = \"" ++ name ++ "\"\n" ++ "  value        = <<EOT\n" ++ body ++
    "\n" ++ "EOT\n" ++ "  category     = \"terraform\"\n" ++ "  hcl          = true\n", ?_⟩
  simp only [resourceBlockHcl, String.append_assoc]

theorem data_append_of_data {a b : String} {p : List Char} (ha : ∃ cs, a.data = p ++ cs) :
    ∃ cs, (a ++ b).data = p ++ cs := by
  obtain ⟨cs, hcs⟩ := ha
  exact ⟨cs ++ b.data, by simp [String.data_append, hcs]⟩

theorem resourceBlockSimple_head (name value workspace : String) :
    ∃ cs, (resourceBlockSimple name value workspace).data = "resource ".data ++ cs := by
  have e : ("resource \"tfe_variable\" \"" : String).data =
      "resource ".data ++ ("\"tfe_variable\" \"" : String).data := by decide
  unfold resourceBlockSimple
  repeat apply data_append_of_data
  exact ⟨_, e⟩

theorem resourceBlockHcl_head (name body workspace : String) :
    ∃ cs, (resourceBlockHcl name body workspace).data = "resource ".data ++ cs := by
  have e : ("resource \"tfe_variable\" \"" : String).data =
      "resource ".data ++ ("\"tfe_variable\" \"" : String).data := by decide
  unfold resourceBlockHcl
  repeat apply data_append_of_data
  exact ⟨_, e⟩

theorem newline_append_cancel {a b : String} (hab : "\n" ++ a = "\n" ++ b) : a = b := by
  apply String.ext
  have := congrArg String.data hab
  simpa [String.data_append] using this

theorem tfCode_ok_shape (h : Hcl) (workspace : String) (v : Variable) (b : String)
    (hc : tfCode h workspace v = .ok ("\n" ++ b)) :
    IsResourceBlock workspace b ∧ ∃ cs, b.data = "resource ".data ++ cs := by
  unfold tfCode at hc
  split at hc
  · split at hc
    · cases hc
    · rename_i s _
      rw [tfCodeTemplateSimple_eq] at hc
      have := newline_append_cancel (Except.ok.inj hc)
      subst this
      exact ⟨resourceBlockSimple_isResourceBlock _ _ _, resourceBlockSimple_head _ _ _⟩
  · rw [tfCodeTemplateHcl_eq] at hc
    have := newline_append_cancel (Except.ok.inj hc)
    subst this
    exact ⟨resourceBlockHcl_isResourceBlock _ _ _, resourceBlockHcl_head _ _ _⟩

theorem tfCode_ok_newline (h : Hcl) (workspace : String) (v : Variable) (c : String)
    (hc : tfCode h workspace v = .ok c) : ∃ b, c = "\n" ++ b := by
  unfold tfCode at hc
  split at hc
  · split at hc
    · cases hc
    · rw [tfCodeTemplateSimple_eq] at hc
      exact ⟨_, (Except.ok.inj hc).symm⟩
  · rw [tfCodeTemplateHcl_eq] at hc
    exact ⟨_, (Except.ok.inj hc).symm⟩

theorem tfCodeLoop_ok (h : Hcl) (workspace : String) (vars : List Variable) :
    ∀ (blocks tfCodeArray : List String),
      List.Forall₂ (fun v b => tfCode h workspace v = .ok ("\n" ++ b)) vars blocks →
      tfCodeLoop h workspace vars tfCodeArray =
        .ok (tfCodeArray ++ blocks.map fun b => "\n" ++ b) := by
  induction vars with
  | nil =>
    intro blocks arr hf
    cases hf
    simp [tfCodeLoop]
  | cons v vs ih =>
    intro blocks arr hf
    cases hf with
    | cons hv hrest =>
      simp only [tfCodeLoop, hv]
      rw [ih _ _ hrest]
      simp

theorem tfCodeLoop_cases (h : Hcl) (workspace : String) (vars : List Variable) :
    ∀ tfCodeArray : List String,
      (∃ msg, tfCodeLoop h workspace vars tfCodeArray = .error msg) ∨
      ∃ blocks, List.Forall₂ (fun v b => tfCode h workspace v = .ok ("\n" ++ b)) vars blocks := by
  induction vars with
  | nil => intro arr; exact Or.inr ⟨[], List.Forall₂.nil⟩
  | cons v vs ih =>
    intro arr
    cases hv : tfCode h workspace v with
    | error msg => exact Or.inl ⟨msg, by simp [tfCodeLoop, hv]⟩
    | ok c =>
      obtain ⟨b, rfl⟩ := tfCode_ok_newline h workspace v c hv
      rcases ih (arr ++ ["\n" ++ b]) with ⟨msg, hm⟩ | ⟨blocks, hbl⟩
      · exact Or.inl ⟨msg, by simp [tfCodeLoop, hv, hm]⟩
      · exact Or.inr ⟨b :: blocks, List.Forall₂.cons hv hbl⟩

theorem forall₂_right_mem {α β : Type} {R : α → β → Prop} {l1 : List α} {l2 : List β}
    (hf : List.Forall₂ R l1 l2) {b : β} (hb : b ∈ l2) : ∃ a, a ∈ l1 ∧ R a b := by
  induction hf with
  | nil => simp at hb
  | cons hr _ ih =>
    rcases List.mem_cons.mp hb with e | hm
    · subst e
      exact ⟨_, by simp, hr⟩
    · obtain ⟨a, ha, hab⟩ := ih hm
      exact ⟨a, by simp [ha], hab⟩

theorem WriteAsTerraformCode_ok (h : Hcl) (w : Sink) (vars : List Variable)
    (org workspace : String) (blocks : List String) (hw : w.Reliable)
    (hb : List.Forall₂ (fun v b => tfCode h workspace v = .ok ("\n" ++ b)) vars blocks) :
    WriteAsTerraformCode h w vars org workspace =
      (⟨w.written ++ [tfWorkspaceDataBlock workspace org, Join blocks "\n\n"],
        w.fails.tail.tail⟩, .returned none) := by
  have h1 := Sink.Write_reliable w (tfWorkspaceDataBlock workspace org) hw
  have hheads : ∀ b ∈ blocks, ∃ (c : Char) (cs : List Char), b.data = c :: cs ∧ c ≠ '\n' := by
    intro b hbm
    obtain ⟨v, _, hv⟩ := forall₂_right_mem hb hbm
    obtain ⟨_, cs, hcs⟩ := tfCode_ok_shape h workspace v b hv
    exact ⟨'r', "esource ".data ++ cs, hcs, by decide⟩
  unfold WriteAsTerraformCode
  simp only [h1.1, tfCodeLoop_ok h workspace vars blocks _ hb,
    TrimLeft_Join_blocks _ _ hheads]
  have h2 := Sink.Write_reliable _ (Join blocks "\n\n") (h1.1 ▸ h1.2)
  simp [h2.1, errorsWrap]

theorem WriteAsTerraformCode_panic (h : Hcl) (w : Sink) (vars : List Variable)
    (org workspace msg : String) (hw : w.Reliable)
    (hl : tfCodeLoop h workspace vars (List.replicate vars.length "") = .error msg) :
    WriteAsTerraformCode h w vars org workspace =
      (⟨w.written ++ [tfWorkspaceDataBlock workspace org], w.fails.tail⟩, .panicked msg) := by
  have h1 := Sink.Write_reliable w (tfWorkspaceDataBlock workspace org) hw
  unfold WriteAsTerraformCode
  simp only [h1.1, hl]

theorem tfCode_of_renderable (h : Hcl) (workspace : String) (v : Variable) (hv : Renderable v) :
    ∃ b, tfCode h workspace v = .ok ("\n" ++ b) := by
  unfold tfCode
  split
  · rename_i hp
    obtain ⟨s, hs⟩ := hv hp
    refine ⟨resourceBlockSimple v.Name s workspace, ?_⟩
    rw [hs]
    simp only [Value.AsString]
    rw [tfCodeTemplateSimple_eq]
  · exact ⟨_, by rw [tfCodeTemplateHcl_eq]⟩

theorem forall₂_of_renderable (h : Hcl) (workspace : String) (vars : List Variable)
    (hs : ∀ v ∈ vars, Renderable v) :
    ∃ blocks, List.Forall₂ (fun v b => tfCode h workspace v = .ok ("\n" ++ b)) vars blocks := by
  induction vars with
  | nil => exact ⟨[], List.Forall₂.nil⟩
  | cons v vs ih =>
    obtain ⟨b, hb⟩ := tfCode_of_renderable h workspace v (hs v (by simp))
    obtain ⟨bs, hbs⟩ := ih (fun u hu => hs u (by simp [hu]))
    exact ⟨b :: bs, List.Forall₂.cons hb hbs⟩

theorem forall₂_left_mem {α β : Type} {R : α → β → Prop} {l1 : List α} {l2 : List β}
    (hf : List.Forall₂ R l1 l2) {a : α} (ha : a ∈ l1) : ∃ b, b ∈ l2 ∧ R a b := by
  induction hf with
  | nil => simp at ha
  | cons hr _ ih =>
    rcases List.mem_cons.mp ha with e | hm
    · subst e
      exact ⟨_, by simp, hr⟩
    · obtain ⟨b, hb, hab⟩ := ih hm
      exact ⟨b, by simp [hb], hab⟩

/-! ## The claims on `WriteAsTerraformCode` -/

/-- C3: for every variable list, organization and workspace, whatever
`WriteAsTerraformCode` writes starts with the one data block of type
tfe_workspace named after the workspace, with that name and that organization:
the chunks written are none (only when the first write fails), or the data block
followed by nothing or by one chunk of resource blocks, one per variable, each
with `workspace_id = data.tfe_workspace.<workspace>.id` for that same workspace;
on a sink whose writes succeed the data block is written. -/
theorem WriteAsTerraformCode_data_block_first (h : Hcl) (w : Sink) (vars : List Variable)
    (org workspace : String) :
    ∃ chunks : List String,
      (WriteAsTerraformCode h w vars org workspace).1.written = w.written ++ chunks ∧
      (chunks = [] ∨
        ∃ rest : List String,
          chunks =
            ("data \"tfe_workspace\" \"" ++ workspace ++ "\" \x7b\n" ++
             "  name         = \"" ++ workspace ++ "\"\n" ++
             "  organization = \"" ++ org ++ "\"\n" ++
             "\x7d\n\n") :: rest ∧
          (rest = [] ∨
            ∃ blocks : List String, blocks.length = vars.length ∧
              rest = [Join blocks "\n\n"] ∧ ∀ b ∈ blocks, IsResourceBlock workspace b)) ∧
      (w.Reliable → chunks ≠ []) := by
  obtain ⟨w1, hw1⟩ := Sink.Write_cases w (tfWorkspaceDataBlock workspace org)
  rcases hw1 with ⟨hwrite, hwritten⟩ | ⟨e, hwrite, hwritten⟩
  swap
  · -- the first write fails
    refine ⟨[], ?_, Or.inl rfl, ?_⟩
    · simp only [WriteAsTerraformCode, hwrite, hwritten, List.append_nil]
    · intro hrel
      have := (Sink.Write_reliable w (tfWorkspaceDataBlock workspace org) hrel).1
      rw [hwrite] at this
      cases this
  rcases tfCodeLoop_cases h workspace vars (List.replicate vars.length "") with
    ⟨msg, hm⟩ | ⟨blocks, hb⟩
  · -- the loop panics
    refine ⟨[tfWorkspaceDataBlock workspace org], ?_, Or.inr ⟨[], rfl, Or.inl rfl⟩, by simp⟩
    simp only [WriteAsTerraformCode, hwrite, hm, hwritten]
  · have hheads : ∀ b ∈ blocks, ∃ (c : Char) (cs : List Char), b.data = c :: cs ∧ c ≠ '\n' := by
      intro b hbm
      obtain ⟨v, _, hv⟩ := forall₂_right_mem hb hbm
      obtain ⟨_, cs, hcs⟩ := tfCode_ok_shape h workspace v b hv
      exact ⟨'r', "esource ".data ++ cs, hcs, by decide⟩
    have hblocks : ∀ b ∈ blocks, IsResourceBlock workspace b := by
      intro b hbm
      obtain ⟨v, _, hv⟩ := forall₂_right_mem hb hbm
      exact (tfCode_ok_shape h workspace v b hv).1
    obtain ⟨w2, hw2⟩ := Sink.Write_cases w1 (Join blocks "\n\n")
    rcases hw2 with ⟨hwrite2, hwritten2⟩ | ⟨e2, hwrite2, hwritten2⟩
    · refine ⟨[tfWorkspaceDataBlock workspace org, Join blocks "\n\n"], ?_,
        Or.inr ⟨[Join blocks "\n\n"], rfl, Or.inr ⟨blocks, hb.length_eq.symm, rfl, hblocks⟩⟩,
        by simp⟩
      simp only [WriteAsTerraformCode, hwrite, tfCodeLoop_ok h workspace vars blocks _ hb,
        TrimLeft_Join_blocks _ _ hheads, hwrite2, hwritten2, hwritten]
      simp
    · refine ⟨[tfWorkspaceDataBlock workspace org], ?_, Or.inr ⟨[], rfl, Or.inl rfl⟩, by simp⟩
      simp only [WriteAsTerraformCode, hwrite, tfCodeLoop_ok h workspace vars blocks _ hb,
        TrimLeft_Join_blocks _ _ hheads, hwrite2, hwritten2, hwritten]

theorem WriteAsTerraformCode_data_block_first_witness :
    emptySink.Reliable ∧
    ∃ chunks : List String,
      (WriteAsTerraformCode Hcl.plain emptySink [imageIdVar, zoneNamesVar] "cool_org"
          "cool_workspace").1.written = emptySink.written ++ chunks ∧
      (chunks = [] ∨
        ∃ rest : List String,
          chunks =
            ("data \"tfe_workspace\" \"" ++ "cool_workspace" ++ "\" \x7b\n" ++
             "  name         = \"" ++ "cool_workspace" ++ "\"\n" ++
             "  organization = \"" ++ "cool_org" ++ "\"\n" ++
             "\x7d\n\n") :: rest ∧
          (rest = [] ∨
            ∃ blocks : List String, blocks.length = [imageIdVar, zoneNamesVar].length ∧
              rest = [Join blocks "\n\n"] ∧
              ∀ b ∈ blocks, IsResourceBlock "cool_workspace" b)) ∧
      (emptySink.Reliable → chunks ≠ []) :=
  ⟨by intro b hb; simp [emptySink] at hb,
    WriteAsTerraformCode_data_block_first Hcl.plain emptySink [imageIdVar, zoneNamesVar]
      "cool_org" "cool_workspace"⟩

/-- The joining of the blocks: when the writes succeed and every variable has a
block (no value of primitive type is anything but a non-null string), what
`WriteAsTerraformCode` writes after the data block is one chunk: the resource
blocks of the variables in input order, each starting with the word resource (no
leading newline), joined by exactly one blank line; for the empty list that
chunk is empty.  The `len(vars)` empty strings at the head of `tfCodeArray`
leave no trace. -/
theorem WriteAsTerraformCode_blocks_joined (h : Hcl) (w : Sink) (vars : List Variable)
    (org workspace : String) (hw : w.Reliable) (hs : ∀ v ∈ vars, Renderable v) :
    ∃ blocks : List String,
      List.Forall₂ (fun v b => tfCode h workspace v = .ok ("\n" ++ b)) vars blocks ∧
      (∀ b ∈ blocks, ∃ cs, b.data = "resource ".data ++ cs) ∧
      WriteAsTerraformCode h w vars org workspace =
        (⟨w.written ++ [tfWorkspaceDataBlock workspace org, Join blocks "\n\n"],
          w.fails.tail.tail⟩, .returned none) ∧
      (vars = [] → Join blocks "\n\n" = "") := by
  obtain ⟨blocks, hb⟩ := forall₂_of_renderable h workspace vars hs
  refine ⟨blocks, hb, ?_, WriteAsTerraformCode_ok h w vars org workspace blocks hw hb, ?_⟩
  · intro b hbm
    obtain ⟨v, _, hv⟩ := forall₂_right_mem hb hbm
    exact (tfCode_ok_shape h workspace v b hv).2
  · intro hnil
    subst hnil
    cases hb
    rfl

theorem WriteAsTerraformCode_blocks_joined_witness :
    emptySink.Reliable ∧ (∀ v ∈ [imageIdVar, zoneNamesVar], Renderable v) ∧
    ∃ blocks : List String,
      List.Forall₂ (fun v b => tfCode Hcl.plain "cool_workspace" v = .ok ("\n" ++ b))
        [imageIdVar, zoneNamesVar] blocks ∧
      (∀ b ∈ blocks, ∃ cs, b.data = "resource ".data ++ cs) ∧
      WriteAsTerraformCode Hcl.plain emptySink [imageIdVar, zoneNamesVar] "cool_org"
          "cool_workspace" =
        (⟨emptySink.written ++ [tfWorkspaceDataBlock "cool_workspace" "cool_org",
            Join blocks "\n\n"], emptySink.fails.tail.tail⟩, .returned none) ∧
      ([imageIdVar, zoneNamesVar] = [] → Join blocks "\n\n" = "") :=
  have hw : emptySink.Reliable := by intro b hb; simp [emptySink] at hb
  have hs : ∀ v ∈ [imageIdVar, zoneNamesVar], Renderable v := by
    intro v hv
    simp only [List.mem_cons, List.mem_singleton, List.not_mem_nil, or_false] at hv
    rcases hv with e | e
    · subst e; intro _; exact ⟨"abc123", rfl⟩
    · subst e; intro hp; exact absurd hp (by decide)
  ⟨hw, hs, WriteAsTerraformCode_blocks_joined Hcl.plain emptySink [imageIdVar, zoneNamesVar]
    "cool_org" "cool_workspace" hw hs⟩

/-- The run on the string variable `image_id` alone, with the default names of
organization and workspace: the data block, then one block with a single-line
value. -/
theorem WriteAsTerraformCode_string_example (h : Hcl) :
    WriteAsTerraformCode h emptySink [imageIdVar] "example_organization" "example_workspace" =
      (⟨["data \"tfe_workspace\" \"example_workspace\" \x7b\n" ++
          "  name         = \"example_workspace\"\n" ++
          "  organization = \"example_organization\"\n" ++
          "\x7d\n\n",
         "resource \"tfe_variable\" \"image_id\" \x7b\n" ++
          "  key          = \"image_id\"\n" ++
          "  value        = \"abc123\"\n" ++
          "  category     = \"terraform\"\n" ++
          "  workspace_id = data.tfe_workspace.example_workspace.id\n" ++
          "  description  = \"\"\n" ++
          "\x7d"], []⟩, .returned none) := by
  rfl

/-- C4, the code at a list of a string variable and a number variable: the
data block is written, then the loop panics on the number, so nothing is written
after the data block, not even the block of the string variable. -/
theorem WriteAsTerraformCode_number_stops_all (h : Hcl) :
    WriteAsTerraformCode h emptySink [imageIdVar, instanceCountVar] "example_organization"
        "example_workspace" =
      (⟨[tfWorkspaceDataBlock "example_workspace" "example_organization"], []⟩,
        .panicked "not a string") :=
  rfl

/-- C1, the code at three inputs of primitive type: for a number, a boolean and
a null string `WriteAsTerraformCode` writes the data block and then panics in
`AsString` ("not a string", "value is null"); no resource block is written. -/
theorem WriteAsTerraformCode_primitive_panics (h : Hcl) :
    WriteAsTerraformCode h emptySink [instanceCountVar] "example_organization"
        "example_workspace" =
      (⟨[tfWorkspaceDataBlock "example_workspace" "example_organization"], []⟩,
        .panicked "not a string") ∧
    WriteAsTerraformCode h emptySink [enabledVar] "example_organization" "example_workspace" =
      (⟨[tfWorkspaceDataBlock "example_workspace" "example_organization"], []⟩,
        .panicked "not a string") ∧
    WriteAsTerraformCode h emptySink [nullStringVar] "example_organization"
        "example_workspace" =
      (⟨[tfWorkspaceDataBlock "example_workspace" "example_organization"], []⟩,
        .panicked "value is null") :=
  ⟨rfl, rfl, rfl⟩

/-! ## Lemmas on the heredoc body -/

theorem Hcl.format_cons (h : Hcl) (t : Token) (ts : List Token) :
    ∃ t1 ts1, h.format (t :: ts) = t1 :: ts1 ∧ t1.Typ = t.Typ ∧ t1.Bytes = t.Bytes := by
  have hc := h.format_content (t :: ts)
  cases hf : h.format (t :: ts) with
  | nil => rw [hf] at hc; simp at hc
  | cons t1 ts1 =>
    rw [hf] at hc
    simp only [List.map_cons, List.cons.injEq, Token.content, Prod.mk.injEq] at hc
    exact ⟨t1, ts1, rfl, hc.1.1, hc.1.2⟩

theorem Tokens.Bytes_cons_data (t : Token) (ts : List Token) :
    (Tokens.Bytes (t :: ts)).data =
      List.replicate t.SpacesBefore ' ' ++ (t.Bytes.data ++ (Tokens.Bytes ts).data) := by
  simp [Tokens.Bytes, String.data_append]

theorem dropWhile_append_singleton {p : Char → Bool} (l : List Char) (c : Char)
    (hc : p c = false) : (l ++ [c]).dropWhile p = l.dropWhile p ++ [c] := by
  induction l with
  | nil => simp [List.dropWhile_cons, hc]
  | cons a rest ih =>
    by_cases ha : p a = true
    · simp [List.dropWhile_cons, ha, ih]
    · simp [List.dropWhile_cons, ha]

theorem TrimSpace_head (s : String) (n : Nat) (c : Char) (cs : List Char)
    (hs : s.data = List.replicate n ' ' ++ c :: cs) (hc : isSpace c = false) :
    ∃ ds, (TrimSpace s).data = c :: ds := by
  have h1 : s.data.dropWhile isSpace = c :: cs := by
    rw [hs]
    clear hs
    induction n with
    | zero => simp [List.dropWhile_cons, hc]
    | succ k ih =>
      have hsp : isSpace ' ' = true := by decide
      simp only [List.replicate_succ, List.cons_append, List.dropWhile_cons, hsp, if_true]
      exact ih
  refine ⟨(cs.reverse.dropWhile isSpace).reverse, ?_⟩
  simp only [TrimSpace, h1, List.reverse_cons]
  rw [dropWhile_append_singleton _ _ hc]
  simp

theorem resourceBlockHcl_body_inj (name b1 b2 workspace : String)
    (hb : resourceBlockHcl name b1 workspace = resourceBlockHcl name b2 workspace) : b1 = b2 := by
  have hd := congrArg String.data hb
  simp only [resourceBlockHcl, String.data_append, List.append_assoc] at hd
  have h1 := List.append_cancel_left hd
  have h2 := List.append_cancel_left h1
  have h3 := List.append_cancel_left h2
  have h4 := List.append_cancel_left h3
  have h5 := List.append_cancel_left h4
  have h6 := List.append_cancel_left h5
  have h7 := List.append_cancel_left h6
  exact String.ext (List.append_cancel_right h7)

theorem tfCode_not_primitive (h : Hcl) (workspace : String) (v : Variable)
    (hnp : IsPrimitiveType v.Value.Type = false) :
    tfCode h workspace v = .ok ("\n" ++ resourceBlockHcl v.Name (hclString h v) workspace) := by
  unfold tfCode
  rw [hnp, tfCodeTemplateHcl_eq]
  rfl

/-- C2 as stated fails: whatever hclwrite's formatter does with spaces, the
block of the list variable `availability_zone_names` is not the heredoc block
whose body is the formatted literal of its value; the body starts with the name
of the variable, the literal with a space or a bracket. -/
theorem hclString_is_not_the_literal :
    ¬ ∃ h : Hcl, tfCode h "example_workspace" zoneNamesVar =
        .ok ("\n" ++ resourceBlockHcl zoneNamesVar.Name
          (formattedLiteral h zoneNamesVar.Value) "example_workspace") := by
  rintro ⟨h, hc⟩
  rw [tfCode_not_primitive h _ _ (by decide)] at hc
  have hbody := resourceBlockHcl_body_inj _ _ _ _ (newline_append_cancel (Except.ok.inj hc))
  -- the body starts with the first letter of the name
  obtain ⟨t1, ts1, hf1, _, hb1⟩ := h.format_cons ⟨.TokenIdent, "availability_zone_names", 0⟩
    ([⟨.TokenEqual, "=", 0⟩] ++ TokensForValue h zoneNamesVar.Value ++ [⟨.TokenNewline, "\n", 0⟩])
  have hd1 : (attributeFileBytes h zoneNamesVar.Name zoneNamesVar.Value).data =
      List.replicate t1.SpacesBefore ' ' ++
        'a' :: ("vailability_zone_names".data ++ (Tokens.Bytes ts1).data) := by
    have e : attributeTokens h zoneNamesVar.Name zoneNamesVar.Value =
        ⟨.TokenIdent, "availability_zone_names", 0⟩ ::
          ([⟨.TokenEqual, "=", 0⟩] ++ TokensForValue h zoneNamesVar.Value ++
            [⟨.TokenNewline, "\n", 0⟩]) := rfl
    rw [attributeFileBytes, e, hf1, Tokens.Bytes_cons_data, hb1]
    rfl
  obtain ⟨ds, hds⟩ := TrimSpace_head _ _ _ _ hd1 (by decide)
  -- the literal starts with a space or with the opening bracket
  obtain ⟨t2, ts2, hf2, _, hb2⟩ := h.format_cons ⟨.TokenOBrack, "[", 0⟩
    (elementTokens h true [.str "us-west-1a"] ++ [⟨.TokenCBrack, "]", 0⟩])
  have hd2 : (formattedLiteral h zoneNamesVar.Value).data =
      List.replicate t2.SpacesBefore ' ' ++ '[' :: (Tokens.Bytes ts2).data := by
    have e : appendTokensForValue h zoneNamesVar.Value =
        ⟨.TokenOBrack, "[", 0⟩ ::
          (elementTokens h true [.str "us-west-1a"] ++ [⟨.TokenCBrack, "]", 0⟩]) := rfl
    rw [formattedLiteral, TokensForValue, e, hf2, Tokens.Bytes_cons_data, hb2]
    rfl
  have hne := congrArg String.data hbody
  rw [show hclString h zoneNamesVar =
    TrimSpace (attributeFileBytes h zoneNamesVar.Name zoneNamesVar.Value) from rfl, hds, hd2] at hne
  cases hn : t2.SpacesBefore with
  | zero =>
    rw [hn] at hne
    simp at hne
  | succ k =>
    rw [hn] at hne
    simp [List.replicate_succ] at hne

/-- C2, amended: when the writes succeed and every variable of the list has a
block, `WriteAsTerraformCode` writes after the data block the blocks of the
variables joined by one blank line, and the block of a variable whose type is
not primitive is a resource block of type tfe_variable whose value is a heredoc
between `<<EOT` and `EOT`, with `category = "terraform"` and `hcl = true`; the
body of the heredoc is the text of the attribute assignment of the variable
(its name, the equal sign, the tokens of its value, as hclwrite formats and
prints them) with the white space around it trimmed. -/
theorem WriteAsTerraformCode_heredoc_block (h : Hcl) (w : Sink) (vars : List Variable)
    (org workspace : String) (v : Variable) (hv : v ∈ vars)
    (hnp : IsPrimitiveType v.Value.Type = false) (hw : w.Reliable)
    (hs : ∀ u ∈ vars, Renderable u) :
    ∃ blocks : List String,
      List.Forall₂ (fun u b => tfCode h workspace u = .ok ("\n" ++ b)) vars blocks ∧
      WriteAsTerraformCode h w vars org workspace =
        (⟨w.written ++ [tfWorkspaceDataBlock workspace org, Join blocks "\n\n"],
          w.fails.tail.tail⟩, .returned none) ∧
      ("resource \"tfe_variable\" \"" ++ v.Name ++ "\" \x7b\n" ++
        "  key          = \"" ++ v.Name ++ "\"\n" ++
        "  value        = <<EOT\n" ++
        TrimSpace (Tokens.Bytes (h.format
          ([⟨.TokenIdent, v.Name, 0⟩, ⟨.TokenEqual, "=", 0⟩] ++ TokensForValue h v.Value ++
            [⟨.TokenNewline, "\n", 0⟩]))) ++ "\n" ++
        "EOT\n" ++
        "  category     = \"terraform\"\n" ++
        "  hcl          = true\n" ++
        "  workspace_id = data.tfe_workspace." ++ workspace ++ ".id\n" ++
        "  description  = \"\"\n" ++
        "\x7d") ∈ blocks := by
  obtain ⟨blocks, hb⟩ := forall₂_of_renderable h workspace vars hs
  refine ⟨blocks, hb, WriteAsTerraformCode_ok h w vars org workspace blocks hw hb, ?_⟩
  obtain ⟨b, hbm, hvb⟩ := forall₂_left_mem hb hv
  rw [tfCode_not_primitive h workspace v hnp] at hvb
  have e := newline_append_cancel (Except.ok.inj hvb)
  rw [← e] at hbm
  exact hbm

theorem WriteAsTerraformCode_heredoc_block_witness :
    zoneNamesVar ∈ [imageIdVar, zoneNamesVar] ∧
    IsPrimitiveType zoneNamesVar.Value.Type = false ∧
    emptySink.Reliable ∧ (∀ u ∈ [imageIdVar, zoneNamesVar], Renderable u) ∧
    ∃ blocks : List String,
      List.Forall₂ (fun u b => tfCode Hcl.plain "cool_workspace" u = .ok ("\n" ++ b))
        [imageIdVar, zoneNamesVar] blocks ∧
      WriteAsTerraformCode Hcl.plain emptySink [imageIdVar, zoneNamesVar] "cool_org"
          "cool_workspace" =
        (⟨emptySink.written ++ [tfWorkspaceDataBlock "cool_workspace" "cool_org",
            Join blocks "\n\n"], emptySink.fails.tail.tail⟩, .returned none) ∧
      ("resource \"tfe_variable\" \"" ++ zoneNamesVar.Name ++ "\" \x7b\n" ++
        "  key          = \"" ++ zoneNamesVar.Name ++ "\"\n" ++
        "  value        = <<EOT\n" ++
        TrimSpace (Tokens.Bytes (Hcl.plain.format
          ([⟨.TokenIdent, zoneNamesVar.Name, 0⟩, ⟨.TokenEqual, "=", 0⟩] ++
            TokensForValue Hcl.plain zoneNamesVar.Value ++ [⟨.TokenNewline, "\n", 0⟩]))) ++ "\n" ++
        "EOT\n" ++
        "  category     = \"terraform\"\n" ++
        "  hcl          = true\n" ++
        "  workspace_id = data.tfe_workspace." ++ "cool_workspace" ++ ".id\n" ++
        "  description  = \"\"\n" ++
        "\x7d") ∈ blocks :=
  have hw : emptySink.Reliable := by intro b hb; simp [emptySink] at hb
  have hs : ∀ v ∈ [imageIdVar, zoneNamesVar], Renderable v := by
    intro v hv
    simp only [List.mem_cons, List.mem_singleton, List.not_mem_nil, or_false] at hv
    rcases hv with e | e
    · subst e; intro _; exact ⟨"abc123", rfl⟩
    · subst e; intro hp; exact absurd hp (by decide)
  have hmem : zoneNamesVar ∈ [imageIdVar, zoneNamesVar] := by simp
  ⟨hmem, by decide, hw, hs, WriteAsTerraformCode_heredoc_block Hcl.plain emptySink
    [imageIdVar, zoneNamesVar] "cool_org" "cool_workspace" zoneNamesVar hmem (by decide) hw hs⟩

set_option maxRecDepth 8000 in
/-- The run on a string variable and a list variable with the stand-in
formatter, which puts no spaces in the assignment: the data block, then the two
blocks separated by one blank line, the second one with the heredoc. -/
theorem WriteAsTerraformCode_list_example :
    WriteAsTerraformCode Hcl.plain emptySink [imageIdVar, zoneNamesVar] "cool_org"
        "cool_workspace" =
      (⟨["data \"tfe_workspace\" \"cool_workspace\" \x7b\n" ++
          "  name         = \"cool_workspace\"\n" ++
          "  organization = \"cool_org\"\n" ++
          "\x7d\n\n",
          "resource \"tfe_variable\" \"image_id\" \x7b\n" ++
          "  key          = \"image_id\"\n" ++
          "  value        = \"abc123\"\n" ++
          "  category     = \"terraform\"\n" ++
          "  workspace_id = data.tfe_workspace.cool_workspace.id\n" ++
          "  description  = \"\"\n" ++
          "\x7d\n\n" ++
          "resource \"tfe_variable\" \"availability_zone_names\" \x7b\n" ++
          "  key          = \"availability_zone_names\"\n" ++
          "  value        = <<EOT\n" ++
          "availability_zone_names=[\"us-west-1a\"]\n" ++
          "EOT\n" ++
          "  category     = \"terraform\"\n" ++
          "  hcl          = true\n" ++
          "  workspace_id = data.tfe_workspace.cool_workspace.id\n" ++
          "  description  = \"\"\n" ++
          "\x7d"], []⟩, .returned none) := by
  rfl

/-! ## Lemmas on `WriteAsEnvVars` -/

theorem stringTokens_head (h : Hcl) (s : String) :
    ∃ ts, stringTokens h s = ⟨.TokenOQuote, "\"", 0⟩ :: ts := ⟨_, rfl⟩

theorem getLast?_cons_append_singleton {α : Type} (a : α) (l : List α) (x : α) :
    (a :: (l ++ [x])).getLast? = some x := by
  induction l generalizing a with
  | nil => rfl
  | cons b rest ih =>
    rw [List.cons_append, List.getLast?_cons_cons]
    exact ih b

theorem getLast?_cons_append_append_singleton {α : Type} (a : α) (l1 l2 : List α) (x : α) :
    (a :: (l1 ++ (l2 ++ [x]))).getLast? = some x := by
  rw [← List.append_assoc]
  exact getLast?_cons_append_singleton _ _ _

theorem stringTokens_getLast (h : Hcl) (s : String) :
    (stringTokens h s).getLast? = some ⟨.TokenCQuote, "\"", 0⟩ := by
  simp only [stringTokens, List.singleton_append, List.cons_append, List.nil_append]
  exact getLast?_cons_append_singleton _ _ _

theorem appendTokensForValue_head (h : Hcl) (v : Value) :
    ∃ t ts, appendTokensForValue h v = t :: ts ∧ t.Typ ≠ .TokenNewline := by
  cases v with
  | null ty => exact ⟨_, _, rfl, by simp⟩
  | str s =>
    obtain ⟨ts, hts⟩ := stringTokens_head h s
    exact ⟨_, ts, by rw [appendTokensForValue, hts], by simp⟩
  | num n => exact ⟨_, _, rfl, by simp⟩
  | bool b => exact ⟨_, _, rfl, by simp⟩
  | list e es => exact ⟨_, _, rfl, by simp⟩
  | set e es => exact ⟨_, _, rfl, by simp⟩
  | tuple es => exact ⟨_, _, rfl, by simp⟩
  | map e kvs => exact ⟨_, _, rfl, by simp⟩
  | object kvs => exact ⟨_, _, rfl, by simp⟩

theorem appendTokensForValue_getLast (h : Hcl) (v : Value) :
    ∃ t, (appendTokensForValue h v).getLast? = some t ∧ t.Typ ≠ .TokenNewline := by
  cases v with
  | null ty => exact ⟨_, rfl, by simp⟩
  | str s => exact ⟨_, by rw [appendTokensForValue, stringTokens_getLast], by simp⟩
  | num n => exact ⟨_, rfl, by simp⟩
  | bool b => exact ⟨_, rfl, by simp⟩
  | list e es =>
    refine ⟨⟨.TokenCBrack, "]", 0⟩, ?_, by simp⟩
    simp only [appendTokensForValue, List.singleton_append, List.cons_append, List.nil_append]
    exact getLast?_cons_append_singleton _ _ _
  | set e es =>
    refine ⟨⟨.TokenCBrack, "]", 0⟩, ?_, by simp⟩
    simp only [appendTokensForValue, List.singleton_append, List.cons_append, List.nil_append]
    exact getLast?_cons_append_singleton _ _ _
  | tuple es =>
    refine ⟨⟨.TokenCBrack, "]", 0⟩, ?_, by simp⟩
    simp only [appendTokensForValue, List.singleton_append, List.cons_append, List.nil_append]
    exact getLast?_cons_append_singleton _ _ _
  | map e kvs =>
    refine ⟨⟨.TokenCBrace, "\x7d", 0⟩, ?_, by simp⟩
    simp only [appendTokensForValue, List.singleton_append, List.cons_append, List.nil_append,
      List.append_assoc]
    exact getLast?_cons_append_append_singleton _ _ _ _
  | object kvs =>
    refine ⟨⟨.TokenCBrace, "\x7d", 0⟩, ?_, by simp⟩
    simp only [appendTokensForValue, List.singleton_append, List.cons_append, List.nil_append,
      List.append_assoc]
    exact getLast?_cons_append_append_singleton _ _ _ _

theorem Hcl.format_head_typ (h : Hcl) (toks : List Token) :
    (h.format toks).head?.map Token.Typ = toks.head?.map Token.Typ := by
  have hc := congrArg (fun l => l.head?.map Prod.fst) (h.format_content toks)
  simpa [List.head?_map, Token.content, Function.comp_def] using hc

theorem Hcl.format_getLast_typ (h : Hcl) (toks : List Token) :
    (h.format toks).getLast?.map Token.Typ = toks.getLast?.map Token.Typ := by
  have hc := congrArg (fun l => l.getLast?.map Prod.fst) (h.format_content toks)
  simpa [List.getLast?_map, Token.content, Function.comp_def] using hc

theorem TokensForValue_newlinesInside (h : Hcl) (v : Value) :
    NewlinesInside (TokensForValue h v) := by
  apply NewlinesInside.of_ends
  · intro t ht
    obtain ⟨t0, ts, hts, hne⟩ := appendTokensForValue_head h v
    have := h.format_head_typ (appendTokensForValue h v)
    rw [show h.format (appendTokensForValue h v) = TokensForValue h v from rfl, ht, hts] at this
    simp only [Option.map_some', List.head?_cons, Option.some.injEq] at this
    rw [this]
    exact hne
  · intro t ht
    obtain ⟨t0, hts, hne⟩ := appendTokensForValue_getLast h v
    have := h.format_getLast_typ (appendTokensForValue h v)
    rw [show h.format (appendTokensForValue h v) = TokensForValue h v from rfl, ht, hts] at this
    simp only [Option.map_some', Option.some.injEq] at this
    rw [this]
    exact hne

theorem envValueText_eq (h : Hcl) (v : Value) :
    envValueText h v = some (bytesTrimSuffix (bytesTrimPrefix
      (h.Format (Tokens.Bytes (onelinerSpec (TokensForValue h (convertNull v))))) "\"") "\"") := by
  unfold envValueText
  simp only [oneliner_eq_spec _ (TokensForValue_newlinesInside h (convertNull v))]

theorem onelinerSpecFrom_no_newlines (prev : Option Token) (l : List Token)
    (hl : ∀ t ∈ l, t.Typ ≠ .TokenNewline) : onelinerSpecFrom prev l = l := by
  induction l generalizing prev with
  | nil => rfl
  | cons t rest ih =>
    have ht := hl t (by simp)
    simp only [onelinerSpecFrom, ht, if_false]
    rw [ih _ (fun u hu => hl u (by simp [hu]))]

theorem TokensForValue_empty_string_no_newline (h : Hcl) :
    ∀ t ∈ TokensForValue h (StringVal ""), t.Typ ≠ .TokenNewline := by
  intro t ht hnl
  have hc := h.format_content (appendTokensForValue h (StringVal ""))
  have hm : t.content ∈ (TokensForValue h (StringVal "")).map Token.content :=
    List.mem_map_of_mem _ ht
  rw [show TokensForValue h (StringVal "") = h.format (appendTokensForValue h (StringVal ""))
    from rfl, hc] at hm
  have e : appendTokensForValue h (StringVal "") =
      [⟨.TokenOQuote, "\"", 0⟩, ⟨.TokenCQuote, "\"", 0⟩] := rfl
  rw [e] at hm
  simp [Token.content, hnl] at hm

theorem envValueText_null (h : Hcl) (v : Value) (hv : v.IsNull = true)
    (hq : h.Format (Tokens.Bytes (TokensForValue h (StringVal ""))) = "\"\"") :
    envValueText h v = some "" := by
  rw [envValueText_eq]
  have hcn : convertNull v = StringVal "" := by simp [convertNull, hv]
  rw [hcn, onelinerSpec, onelinerSpecFrom_no_newlines _ _
    (TokensForValue_empty_string_no_newline h), hq]
  decide

theorem WriteAsEnvVarsLoop_reliable (h : Hcl) (vars : List Variable) :
    ∀ w : Sink, w.Reliable →
      (WriteAsEnvVarsLoop h vars w none).1.written = w.written ++ vars.map (envLine h) ∧
      (WriteAsEnvVarsLoop h vars w none).2 = .returned none := by
  induction vars with
  | nil => intro w _; exact ⟨by simp [WriteAsEnvVarsLoop], rfl⟩
  | cons v vs ih =>
    intro w hw
    have hb := envValueText_eq h v.Value
    have h1 := Sink.Write_reliable w (envLine h v) hw
    obtain ⟨hwr, hout⟩ := ih _ h1.2
    have hnone : errorsWrap (w.Write (envLine h v)).2
        "tfvar: unexpected writing export" = none := by rw [h1.1]; rfl
    constructor
    · simp only [WriteAsEnvVarsLoop, hb]
      rw [show exportLine v.Name _ = envLine h v from rfl, hnone, hwr, h1.1]
      simp
    · simp only [WriteAsEnvVarsLoop, hb]
      rw [show exportLine v.Name _ = envLine h v from rfl, hnone, hout]

theorem WriteAsEnvVarsLoop_written (h : Hcl) (vars : List Variable) :
    ∀ (w : Sink) (we : Option String),
      ∃ k, (WriteAsEnvVarsLoop h vars w we).1.written =
          w.written ++ (vars.map (envLine h)).take k ∧
        (we ≠ none → k = 0) := by
  induction vars with
  | nil => intro w we; exact ⟨0, by simp [WriteAsEnvVarsLoop], fun _ => rfl⟩
  | cons v vs ih =>
    intro w we
    have hb := envValueText_eq h v.Value
    cases we with
    | some e =>
      obtain ⟨k, hk, hk0⟩ := ih w (some e)
      refine ⟨0, ?_, fun _ => rfl⟩
      simp only [WriteAsEnvVarsLoop, hb]
      rw [hk, hk0 (by simp)]
      simp
    | none =>
      obtain ⟨w1, hw1⟩ := Sink.Write_cases w (envLine h v)
      rcases hw1 with ⟨hwrite, hwritten⟩ | ⟨e, hwrite, hwritten⟩
      · obtain ⟨k, hk, _⟩ := ih w1 none
        refine ⟨k + 1, ?_, fun hc => absurd rfl hc⟩
        simp only [WriteAsEnvVarsLoop, hb]
        rw [show exportLine v.Name _ = envLine h v from rfl, hwrite]
        simp only [errorsWrap, Option.map_none']
        rw [hk, hwritten]
        simp
      · obtain ⟨k, hk, hk0⟩ := ih w1 (errorsWrap (some e) "tfvar: unexpected writing export")
        refine ⟨0, ?_, fun hc => absurd rfl hc⟩
        simp only [WriteAsEnvVarsLoop, hb]
        rw [show exportLine v.Name _ = envLine h v from rfl, hwrite]
        simp only []
        rw [hk, hk0 (by simp [errorsWrap]), hwritten]
        simp

theorem exportLine_eq (name b : String) :
    exportLine name b = "export TF_VAR_" ++ name ++ "='" ++ b ++ "'\n" := by
  have e1 : "export " ++ varEnvPrefix = "export TF_VAR_" := by decide
  simp only [exportLine, e1]

theorem envLine_null (h : Hcl) (v : Variable) (hv : v.Value.IsNull = true)
    (hq : h.Format (Tokens.Bytes (TokensForValue h (StringVal ""))) = "\"\"") :
    envLine h v = "export TF_VAR_" ++ v.Name ++ "=''\n" := by
  have hb := envValueText_null h v.Value hv hq
  rw [envValueText_eq] at hb
  rw [envLine, Option.some.inj hb, exportLine_eq, String.append_empty, String.append_assoc]
  rfl

theorem forall₂_map_right {α β : Type} (f : α → β) (P : α → β → Prop) (l : List α)
    (hP : ∀ a ∈ l, P a (f a)) : List.Forall₂ P l (l.map f) := by
  induction l with
  | nil => exact List.Forall₂.nil
  | cons a rest ih =>
    exact List.Forall₂.cons (hP a (by simp)) (ih fun x hx => hP x (by simp [hx]))

/-! ## The claim on `WriteAsEnvVars` -/

/-- C8: given that hclwrite prints the empty string value as two double quotes,
`WriteAsEnvVars` has one line for each variable, of the form
`export TF_VAR_<name>=.<text>.` (the dots are single quotes) with a line break,
and the line of every variable whose value is null, of whatever type, is
exactly `export TF_VAR_<name>=..` followed by a line break; what it writes is
these lines in order, up to the first write that fails, and on a sink whose
writes succeed it writes them all and returns no error. -/
theorem WriteAsEnvVars_null_is_empty (h : Hcl) (w : Sink) (vars : List Variable)
    (hq : h.Format (Tokens.Bytes (TokensForValue h (StringVal ""))) = "\"\"") :
    ∃ lines : List String,
      List.Forall₂
        (fun v l =>
          (∃ b, l = "export TF_VAR_" ++ v.Name ++ "='" ++ b ++ "'\n") ∧
          (v.Value.IsNull = true → l = "export TF_VAR_" ++ v.Name ++ "=''\n"))
        vars lines ∧
      (∃ k, (WriteAsEnvVars h w vars).1.written = w.written ++ lines.take k) ∧
      (w.Reliable →
        (WriteAsEnvVars h w vars).1.written = w.written ++ lines ∧
        (WriteAsEnvVars h w vars).2 = .returned none) := by
  refine ⟨vars.map (envLine h), forall₂_map_right _ _ _ ?_, ?_, ?_⟩
  · intro v _
    exact ⟨⟨_, exportLine_eq _ _⟩, fun hnull => envLine_null h v hnull hq⟩
  · obtain ⟨k, hk, _⟩ := WriteAsEnvVarsLoop_written h vars w none
    exact ⟨k, hk⟩
  · intro hw
    exact WriteAsEnvVarsLoop_reliable h vars w hw

/-! ## Lemmas on the collectors -/

/-- Applying a sequence of assignments to the mapping. -/
theorem foldl_set_apply (l : List (String × UnparsedVariableValue)) :
    ∀ (m : RawMap) (name : String),
      (l.foldl (fun m p => RawMap.set m p.1 p.2) m) name = (lastAssigned name l).or (m name) := by
  induction l with
  | nil => intro m name; rfl
  | cons p rest ih =>
    intro m name
    simp only [List.foldl_cons, lastAssigned]
    rw [ih, Option.or_assoc]
    congr 1
    simp only [RawMap.set]
    split <;> rfl

theorem lastAssigned_append (name : String) (a b : List (String × UnparsedVariableValue)) :
    lastAssigned name (a ++ b) = (lastAssigned name b).or (lastAssigned name a) := by
  induction a with
  | nil => simp only [List.nil_append, lastAssigned, Option.or_none]
  | cons p rest ih =>
    rw [List.cons_append]
    simp only [lastAssigned]
    rw [ih, Option.or_assoc]

theorem CollectFromEnvVars_eq (W : World) (m : RawMap) :
    CollectFromEnvVars W m = (envAssignments W).foldl (fun m p => RawMap.set m p.1 p.2) m := by
  unfold CollectFromEnvVars envAssignments
  generalize W.Environ = env
  induction env generalizing m with
  | nil => rfl
  | cons kv rest ih =>
    simp only [List.foldl_cons, List.filterMap_cons]
    split
    · rename_i hp
      simp only [hp, if_true, List.foldl_cons]
      exact ih _
    · rename_i hp
      simp only [hp]
      exact ih _

theorem CollectFromFile_ok (W : World) (path : String) (m : RawMap)
    (hr : W.readVarFile path ≠ none) :
    CollectFromFile W path m =
      .ok ((fileAssignments W path).foldl (fun m p => RawMap.set m p.1 p.2) m) := by
  unfold CollectFromFile fileAssignments
  cases hf : W.readVarFile path with
  | none => exact absurd hf hr
  | some attrs =>
    simp only [List.foldl_map]

theorem collectFromFiles_ok (W : World) (fs : List String) :
    ∀ m : RawMap, (∀ f ∈ fs, W.readVarFile f ≠ none) →
      collectFromFiles W fs m =
        .ok ((fs.flatMap (fileAssignments W)).foldl (fun m p => RawMap.set m p.1 p.2) m) := by
  induction fs with
  | nil => intro m _; rfl
  | cons f rest ih =>
    intro m hfs
    simp only [collectFromFiles, CollectFromFile_ok W f m (hfs f (by simp))]
    rw [ih _ (fun g hg => hfs g (by simp [hg]))]
    simp [List.flatMap_cons, List.foldl_append]

theorem CollectFromString_ok (fv : String) (m : RawMap) (hs : splitAtEqual fv.data ≠ none) :
    CollectFromString fv m =
      .ok ((stringAssignments fv).foldl (fun m p => RawMap.set m p.1 p.2) m) := by
  unfold CollectFromString stringAssignments
  cases hf : splitAtEqual fv.data with
  | none => exact absurd hf hs
  | some nr => rfl

theorem collectFromStrings_ok (fvs : List String) :
    ∀ m : RawMap, (∀ fv ∈ fvs, splitAtEqual fv.data ≠ none) →
      collectFromStrings fvs m =
        .ok ((fvs.flatMap stringAssignments).foldl (fun m p => RawMap.set m p.1 p.2) m) := by
  induction fvs with
  | nil => intro m _; rfl
  | cons fv rest ih =>
    intro m hfs
    simp only [collectFromStrings, CollectFromString_ok fv m (hfs fv (by simp))]
    rw [ih _ (fun g hg => hfs g (by simp [hg]))]
    simp [List.flatMap_cons, List.foldl_append]

theorem collectUnparseds_ok (W : World) (fl : Flags) (dir : String)
    (hok : CollectorsSucceed W fl dir) :
    collectUnparseds W fl dir =
      .ok ((precedenceLayers W fl dir).foldl (fun m p => RawMap.set m p.1 p.2) fun _ => none) := by
  obtain ⟨hauto, hvars, hfile⟩ := hok
  unfold collectUnparseds precedenceLayers
  cases ha : fl.autoAssign with
  | false =>
    simp only [Bool.false_eq_true, if_false, collectFromStrings_ok fl.vars _ hvars,
      List.nil_append]
    by_cases hf : fl.varFile = ""
    · simp [hf]
    · simp only [ne_eq, hf, not_false_eq_true, if_true, CollectFromFile_ok W _ _ (hfile hf),
        List.foldl_append]
  | true =>
    simp only [if_true, collectFromFiles_ok W _ _ (hauto ha), CollectFromEnvVars_eq,
      collectFromStrings_ok fl.vars _ hvars]
    by_cases hf : fl.varFile = ""
    · simp [hf, List.foldl_append]
    · simp only [ne_eq, hf, not_false_eq_true, if_true, CollectFromFile_ok W _ _ (hfile hf),
        List.foldl_append]

theorem lastAssigned_mem (name : String) (l : List (String × UnparsedVariableValue))
    (u : UnparsedVariableValue) (hl : lastAssigned name l = some u) : (name, u) ∈ l := by
  induction l with
  | nil => simp [lastAssigned] at hl
  | cons p rest ih =>
    simp only [lastAssigned, Option.or_eq_some] at hl
    rcases hl with hr | ⟨_, hp⟩
    · exact List.mem_cons_of_mem _ (ih hr)
    · by_cases hn : name = p.1
      · simp only [hn, if_true, Option.some.injEq] at hp
        subst hp
        rw [hn]
        exact List.mem_cons_self _ _
      · simp [hn] at hp

theorem lastAssigned_isSome_of_mem (name : String) (u : UnparsedVariableValue)
    (l : List (String × UnparsedVariableValue)) (hmem : (name, u) ∈ l) :
    ∃ u1, lastAssigned name l = some u1 := by
  induction l with
  | nil => simp at hmem
  | cons p rest ih =>
    simp only [lastAssigned]
    rcases List.mem_cons.mp hmem with e | e
    · subst e
      cases lastAssigned name rest with
      | some u1 => exact ⟨u1, rfl⟩
      | none => exact ⟨u, by simp⟩
    · obtain ⟨u1, hu1⟩ := ih e
      exact ⟨u1, by simp [hu1]⟩

theorem lastAssigned_of_unique (name : String) (u : UnparsedVariableValue)
    (l : List (String × UnparsedVariableValue)) (hmem : (name, u) ∈ l)
    (huniq : ∀ u1, (name, u1) ∈ l → u1 = u) : lastAssigned name l = some u := by
  obtain ⟨u1, hu1⟩ := lastAssigned_isSome_of_mem name u l hmem
  rw [hu1, huniq u1 (lastAssigned_mem name l u1 hu1)]

theorem CollectFromFile_error (W : World) (path : String) (m : RawMap) (e : String)
    (he : CollectFromFile W path m = .error e) : W.readVarFile path = none := by
  unfold CollectFromFile at he
  cases hf : W.readVarFile path with
  | none => rfl
  | some attrs => rw [hf] at he; cases he

theorem CollectFromString_error (fv : String) (m : RawMap) (e : String)
    (he : CollectFromString fv m = .error e) : splitAtEqual fv.data = none := by
  unfold CollectFromString at he
  cases hf : splitAtEqual fv.data with
  | none => rfl
  | some nr => rw [hf] at he; cases he

theorem collectFromFiles_cases (W : World) (fs : List String) :
    ∀ m : RawMap, (∀ f ∈ fs, W.readVarFile f ≠ none) ∨
      ∃ f ∈ fs, W.readVarFile f = none ∧
        collectFromFiles W fs m = .error ("tfvar: failed to parse '" ++ f ++ "'") := by
  induction fs with
  | nil => intro m; exact Or.inl (by simp)
  | cons f rest ih =>
    intro m
    cases hf : W.readVarFile f with
    | none => exact Or.inr ⟨f, by simp, hf, by simp [collectFromFiles, CollectFromFile, hf]⟩
    | some attrs =>
      have hne : W.readVarFile f ≠ none := by simp [hf]
      rcases ih ((fileAssignments W f).foldl (fun m p => RawMap.set m p.1 p.2) m) with hall | ⟨g, hg, hgn, hge⟩
      · refine Or.inl ?_
        intro k hk
        rcases List.mem_cons.mp hk with e | e
        · rw [e]; exact hne
        · exact hall k e
      · exact Or.inr ⟨g, by simp [hg], hgn, by
          simp only [collectFromFiles, CollectFromFile_ok W f m hne]
          exact hge⟩

theorem collectFromStrings_cases (fvs : List String) :
    ∀ m : RawMap, (∀ fv ∈ fvs, splitAtEqual fv.data ≠ none) ∨
      ∃ fv ∈ fvs, splitAtEqual fv.data = none ∧
        collectFromStrings fvs m = .error ("tfvar: bad var string '" ++ fv ++ "'") := by
  induction fvs with
  | nil => intro m; exact Or.inl (by simp)
  | cons fv rest ih =>
    intro m
    cases hf : splitAtEqual fv.data with
    | none => exact Or.inr ⟨fv, by simp, hf, by simp [collectFromStrings, CollectFromString, hf]⟩
    | some nr =>
      have hne : splitAtEqual fv.data ≠ none := by simp [hf]
      rcases ih ((stringAssignments fv).foldl (fun m p => RawMap.set m p.1 p.2) m) with hall | ⟨g, hg, hgn, hge⟩
      · refine Or.inl ?_
        intro k hk
        rcases List.mem_cons.mp hk with e | e
        · rw [e]; exact hne
        · exact hall k e
      · exact Or.inr ⟨g, by simp [hg], hgn, by
          simp only [collectFromStrings, CollectFromString_ok fv m hne]
          exact hge⟩

theorem collectUnparseds_cases (W : World) (fl : Flags) (dir : String) :
    CollectorsSucceed W fl dir ∨
      ∃ e, collectUnparseds W fl dir = .error e ∧ CallError W fl dir e := by
  -- the auto-discovered files
  by_cases hauto : fl.autoAssign = true → ∀ f ∈ W.LookupTFVarsFiles dir, W.readVarFile f ≠ none
  swap
  · refine Or.inr ?_
    have ha : fl.autoAssign = true := by
      by_contra hc
      exact hauto (fun h => absurd h hc)
    rcases collectFromFiles_cases W (W.LookupTFVarsFiles dir)
      (CollectFromEnvVars W fun _ => none) with hall | ⟨f, hf, hfn, hfe⟩
    · exact absurd (fun _ => hall) hauto
    · exact ⟨"tfvar: failed to parse '" ++ f ++ "'",
        by simp only [collectUnparseds, ha, if_true, hfe],
        Or.inr (Or.inl ⟨ha, f, hf, fun _ => none, by simp only [CollectFromFile, hfn]⟩)⟩
  -- the mapping after the first stage
  obtain ⟨m1, hm1⟩ : ∃ m1 : RawMap, (if fl.autoAssign then
      collectFromFiles W (W.LookupTFVarsFiles dir) (CollectFromEnvVars W fun _ => none)
    else .ok fun _ => none) = .ok m1 := by
    cases ha : fl.autoAssign with
    | false => exact ⟨_, rfl⟩
    | true =>
      exact ⟨((W.LookupTFVarsFiles dir).flatMap (fileAssignments W)).foldl
        (fun m p => RawMap.set m p.1 p.2) (CollectFromEnvVars W fun _ => none), by
          simp only [if_true]
          exact collectFromFiles_ok W _ _ (hauto ha)⟩
  rcases collectFromStrings_cases fl.vars m1 with hvars | ⟨fv, hfv, hfn, hfe⟩
  swap
  · exact Or.inr ⟨"tfvar: bad var string '" ++ fv ++ "'",
      by simp only [collectUnparseds, hm1, hfe],
      Or.inr (Or.inr (Or.inl ⟨fv, hfv, fun _ => none, by simp only [CollectFromString, hfn]⟩))⟩
  by_cases hfile : fl.varFile ≠ "" → W.readVarFile fl.varFile ≠ none
  · exact Or.inl ⟨hauto, hvars, hfile⟩
  · refine Or.inr ?_
    have hne : fl.varFile ≠ "" := by
      by_contra hc
      exact hfile (fun h => absurd hc h)
    have hnone : W.readVarFile fl.varFile = none := by
      by_contra hc
      exact hfile (fun _ => hc)
    exact ⟨"tfvar: failed to parse '" ++ fl.varFile ++ "'", by
      simp only [collectUnparseds, hm1, collectFromStrings_ok fl.vars m1 hvars, ne_eq, hne,
        not_false_eq_true, if_true, CollectFromFile, hnone],
      Or.inr (Or.inr (Or.inr (Or.inl ⟨hne, fun _ => none, by
        simp only [CollectFromFile, hnone]⟩)))⟩

theorem mem_insertByName (v u : Variable) (l : List Variable) :
    u ∈ insertByName v l ↔ u = v ∨ u ∈ l := by
  induction l with
  | nil => simp [insertByName]
  | cons a rest ih =>
    simp only [insertByName]
    split
    · simp
    · simp only [List.mem_cons, ih]
      tauto

theorem mem_sortByName (u : Variable) (l : List Variable) : u ∈ sortByName l ↔ u ∈ l := by
  induction l with
  | nil => simp [sortByName]
  | cons a rest ih => simp [sortByName, mem_insertByName, ih]

theorem ParseValues_ok (W : World) (m : RawMap) (vars : List Variable)
    (hp : ∀ v ∈ vars, ∀ u, m v.Name = some u →
      ∃ val, parseVariableValue W v.Name v.parsingMode u = .ok val) :
    ∃ parsed : List Variable,
      ParseValues W m vars = .ok parsed ∧
      List.Forall₂
        (fun v r => r.Name = v.Name ∧ r.parsingMode = v.parsingMode ∧
          (m v.Name = none → r.Value = v.Value) ∧
          (∀ u, m v.Name = some u →
            parseVariableValue W v.Name v.parsingMode u = .ok r.Value))
        vars parsed := by
  induction vars with
  | nil => exact ⟨[], rfl, List.Forall₂.nil⟩
  | cons v vs ih =>
    obtain ⟨rest, hrest, hf⟩ := ih (fun x hx => hp x (by simp [hx]))
    cases hm : m v.Name with
    | none =>
      refine ⟨v :: rest, by simp only [ParseValues, hm, hrest], List.Forall₂.cons ?_ hf⟩
      refine ⟨rfl, rfl, fun _ => rfl, ?_⟩
      intro u hu
      rw [hm] at hu
      cases hu
    | some u =>
      obtain ⟨val, hval⟩ := hp v (by simp) u hm
      refine ⟨⟨v.Name, val, v.parsingMode⟩ :: rest, by simp only [ParseValues, hm, hval, hrest],
        List.Forall₂.cons ?_ hf⟩
      refine ⟨rfl, rfl, ?_, ?_⟩
      · intro hn
        rw [hm] at hn
        cases hn
      · intro u1 hu1
        rw [hm] at hu1
        cases hu1
        exact hval

/-! ## The claims on `rootRunE` -/

/-- C5: when every collector succeeds, the mapping `rootRunE` hands to
`ParseValues` gives each name the value of the last assignment in the sequence
environment, auto-discovered files in discovery order (both only with
auto-assign), `--var` literals in command-line order, `--var-file` file; so a
name the `--var-file` file supplies has the raw value of that file, whatever the
environment, the auto-discovered files and the `--var` literals supply. -/
theorem rootRunE_var_file_wins (h : Hcl) (W : World) (fl : Flags) (dir : String) (out : Sink)
    (decls : List Variable) (attrs : List (String × String)) (name raw : String)
    (hload : W.LoadConfigDir dir = .ok decls)
    (hok : CollectorsSucceed W fl dir)
    (hfile : fl.varFile ≠ "")
    (hread : W.readVarFile fl.varFile = some attrs)
    (hmem : (name, raw) ∈ attrs)
    (huniq : ∀ r, (name, r) ∈ attrs → r = raw) :
    ∃ m : RawMap,
      collectUnparseds W fl dir = .ok m ∧
      (∀ k, m k = lastAssigned k (precedenceLayers W fl dir)) ∧
      m name = some ⟨raw, .File, fl.varFile⟩ ∧
      rootRunE h W fl dir out =
        match ParseValues W m (replaceWithNull fl.ignoreDefault (sortByName decls)) with
        | .error err => (out, .returned (some err))
        | .ok vars => WriteAsTerraformCode h out vars fl.org fl.workspace := by
  have hall : ∀ k, ((precedenceLayers W fl dir).foldl (fun m p => RawMap.set m p.1 p.2)
      fun _ => none) k = lastAssigned k (precedenceLayers W fl dir) := by
    intro k
    rw [foldl_set_apply, Option.or_none]
  refine ⟨_, collectUnparseds_ok W fl dir hok, hall, ?_, ?_⟩
  · rw [hall]
    have hfa : fileAssignments W fl.varFile = attrs.map fun a => (a.1, ⟨a.2, .File, fl.varFile⟩) := by
      simp only [fileAssignments, hread]
    have hlast : lastAssigned name (fileAssignments W fl.varFile) =
        some ⟨raw, .File, fl.varFile⟩ := by
      apply lastAssigned_of_unique
      · rw [hfa]
        exact List.mem_map.mpr ⟨(name, raw), hmem, rfl⟩
      · intro u1 hu1
        rw [hfa] at hu1
        obtain ⟨a, ha, hau⟩ := List.mem_map.mp hu1
        simp only [Prod.mk.injEq] at hau
        obtain ⟨h1, h2⟩ := hau
        have := huniq a.2 (by rw [← h1]; exact ha)
        rw [← h2, this]
    simp only [precedenceLayers, ne_eq, hfile, not_false_eq_true, if_true]
    rw [lastAssigned_append, hlast]
    rfl
  · simp only [rootRunE, Load, hload, collectUnparseds_ok W fl dir hok]

theorem rootRunE_var_file_wins_witness :
    (("image_id", ⟨"from-env", .Env, "TF_VAR_image_id"⟩) ∈ envAssignments exampleWorld ∧
     ("image_id", ⟨"from-auto-file", .File, "testdata/terraform.tfvars"⟩) ∈
        fileAssignments exampleWorld "testdata/terraform.tfvars" ∧
     ("image_id", ⟨"from-var", .CLIFlag, "image_id=from-var"⟩) ∈
        stringAssignments "image_id=from-var") ∧
    ∃ m : RawMap,
      collectUnparseds exampleWorld exampleFlags "testdata" = .ok m ∧
      (∀ k, m k = lastAssigned k (precedenceLayers exampleWorld exampleFlags "testdata")) ∧
      m "image_id" = some ⟨"from-var-file", .File, "testdata/my.tfvars"⟩ ∧
      rootRunE Hcl.plain exampleWorld exampleFlags "testdata" emptySink =
        match ParseValues exampleWorld m
            (replaceWithNull exampleFlags.ignoreDefault
              (sortByName [zoneNamesVar, imageIdDecl])) with
        | .error err => (emptySink, .returned (some err))
        | .ok vars => WriteAsTerraformCode Hcl.plain emptySink vars exampleFlags.org
            exampleFlags.workspace :=
  ⟨by decide,
   rootRunE_var_file_wins Hcl.plain exampleWorld exampleFlags "testdata" emptySink
    [zoneNamesVar, imageIdDecl] [("image_id", "from-var-file")] "image_id" "from-var-file" rfl
    (by unfold CollectorsSucceed; decide) (by decide) rfl (by simp)
    (by intro r hr; simpa using hr)⟩

theorem length_insertByName (v : Variable) (l : List Variable) :
    (insertByName v l).length = l.length + 1 := by
  induction l with
  | nil => rfl
  | cons a rest ih =>
    simp only [insertByName]
    split
    · rfl
    · simp [ih]

theorem length_sortByName (l : List Variable) : (sortByName l).length = l.length := by
  induction l with
  | nil => rfl
  | cons a rest ih => simp [sortByName, length_insertByName, ih]

/-- C6: in a run of `rootRunE` in which a call fails (`Load`, a
`CollectFromFile`, a `CollectFromString` such as a `--var` literal without an
equal sign, or `ParseValues`), `rootRunE` returns the error of a failing call
and leaves the sink as it was: the renderer is not reached and nothing, not
even the data block, is written. -/
theorem rootRunE_error_writes_nothing (h : Hcl) (W : World) (fl : Flags) (dir : String)
    (out : Sink) (hfail : ∃ e, CallError W fl dir e) :
    ∃ e, CallError W fl dir e ∧ rootRunE h W fl dir out = (out, .returned (some e)) := by
  cases hload : Load W dir with
  | error e =>
    exact ⟨e, Or.inl hload, by simp only [rootRunE, hload]⟩
  | ok decls =>
    rcases collectUnparseds_cases W fl dir with hok | ⟨e, he, hce⟩
    · have hm := collectUnparseds_ok W fl dir hok
      cases hp : ParseValues W ((precedenceLayers W fl dir).foldl
          (fun m p => RawMap.set m p.1 p.2) fun _ => none)
          (replaceWithNull fl.ignoreDefault (sortByName decls)) with
      | error e =>
        exact ⟨e, Or.inr (Or.inr (Or.inr (Or.inr ⟨decls, _, hload, hm, hp⟩))), by
          simp only [rootRunE, hload, hm, hp]⟩
      | ok vars =>
        exfalso
        obtain ⟨e, he⟩ := hfail
        obtain ⟨hauto, hvars, hfile⟩ := hok
        rcases he with hd | ⟨ha, f, hf, m1, hfe⟩ | ⟨fv, hfv, m1, hfe⟩ |
          ⟨hne, m1, hfe⟩ | ⟨decls1, m1, hl1, hm1, hp1⟩
        · rw [hload] at hd; cases hd
        · exact hauto ha f hf (CollectFromFile_error W f m1 e hfe)
        · exact hvars fv hfv (CollectFromString_error fv m1 e hfe)
        · exact hfile hne (CollectFromFile_error W _ m1 e hfe)
        · rw [hload] at hl1
          cases hl1
          rw [hm] at hm1
          cases hm1
          rw [hp] at hp1
          cases hp1
    · exact ⟨e, hce, by simp only [rootRunE, hload, he]⟩

theorem rootRunE_error_writes_nothing_witness :
    (∃ e, CallError exampleWorld badFileFlags "testdata" e) ∧
    (∃ e, CallError exampleWorld badFileFlags "testdata" e ∧
      rootRunE Hcl.plain exampleWorld badFileFlags "testdata" emptySink =
        (emptySink, .returned (some e))) ∧
    rootRunE Hcl.plain exampleWorld badFileFlags "testdata" emptySink =
      (emptySink, .returned (some "tfvar: failed to parse 'testdata/bad.tfvars'")) ∧
    rootRunE Hcl.plain exampleWorld badVarFlags "testdata" emptySink =
      (emptySink, .returned (some "tfvar: bad var string ''unknown''")) :=
  have hfail : ∃ e, CallError exampleWorld badFileFlags "testdata" e :=
    ⟨_, Or.inr (Or.inr (Or.inr (Or.inl ⟨by decide, fun _ => none, rfl⟩)))⟩
  ⟨hfail, rootRunE_error_writes_nothing Hcl.plain exampleWorld badFileFlags "testdata" emptySink
    hfail, by decide, by decide⟩

/-- C7: with `--ignore-default`, when loading, collecting and parsing succeed,
`rootRunE` replaces the value of every declared variable by the null of the
type of that value before the raw values are applied: the renderer receives one
variable for each declared variable, whose value is the null of the type of the
declared value when the mapping has no raw value for its name, and the parsed
raw value when it has one. -/
theorem rootRunE_ignore_default (h : Hcl) (W : World) (fl : Flags) (dir : String) (out : Sink)
    (decls : List Variable) (m : RawMap)
    (hi : fl.ignoreDefault = true)
    (hload : W.LoadConfigDir dir = .ok decls)
    (hc : collectUnparseds W fl dir = .ok m)
    (hp : ∀ d ∈ decls, ∀ u, m d.Name = some u →
      ∃ val, parseVariableValue W d.Name d.parsingMode u = .ok val) :
    ∃ vars : List Variable,
      rootRunE h W fl dir out = WriteAsTerraformCode h out vars fl.org fl.workspace ∧
      vars.length = decls.length ∧
      ∀ d ∈ decls, ∃ r ∈ vars, r.Name = d.Name ∧
        (m d.Name = none → r.Value = NullVal d.Value.Type) ∧
        (∀ u, m d.Name = some u →
          parseVariableValue W d.Name d.parsingMode u = .ok r.Value) := by
  have hnull : replaceWithNull fl.ignoreDefault (sortByName decls) =
      (sortByName decls).map fun v => ⟨v.Name, NullVal v.Value.Type, v.parsingMode⟩ := by
    simp only [replaceWithNull, hi, if_true]
  obtain ⟨parsed, hparsed, hf⟩ := ParseValues_ok W m
      (replaceWithNull fl.ignoreDefault (sortByName decls)) (by
    intro v hv u hu
    rw [hnull] at hv
    obtain ⟨d, hd, rfl⟩ := List.mem_map.mp hv
    exact hp d ((mem_sortByName d decls).mp hd) u hu)
  refine ⟨parsed, by simp only [rootRunE, Load, hload, hc, hparsed], ?_, ?_⟩
  · rw [← hf.length_eq, hnull, List.length_map, length_sortByName]
  · intro d hd
    have hd1 : (⟨d.Name, NullVal d.Value.Type, d.parsingMode⟩ : Variable) ∈
        replaceWithNull fl.ignoreDefault (sortByName decls) := by
      rw [hnull]
      exact List.mem_map.mpr ⟨d, (mem_sortByName d decls).mpr hd, rfl⟩
    obtain ⟨r, hr, hname, _, hnone, hsome⟩ := forall₂_left_mem hf hd1
    exact ⟨r, hr, hname, hnone, hsome⟩

theorem rootRunE_ignore_default_witness :
    ∃ vars : List Variable,
      rootRunE Hcl.plain exampleWorld ignoreDefaultFlags "testdata" emptySink =
        WriteAsTerraformCode Hcl.plain emptySink vars ignoreDefaultFlags.org
          ignoreDefaultFlags.workspace ∧
      vars.length = [zoneNamesVar, imageIdDecl].length ∧
      ∀ d ∈ [zoneNamesVar, imageIdDecl], ∃ r ∈ vars, r.Name = d.Name ∧
        (((precedenceLayers exampleWorld ignoreDefaultFlags "testdata").foldl
            (fun m p => RawMap.set m p.1 p.2) fun _ => none) d.Name = none →
          r.Value = NullVal d.Value.Type) ∧
        (∀ u, ((precedenceLayers exampleWorld ignoreDefaultFlags "testdata").foldl
            (fun m p => RawMap.set m p.1 p.2) fun _ => none) d.Name = some u →
          parseVariableValue exampleWorld d.Name d.parsingMode u = .ok r.Value) :=
  rootRunE_ignore_default Hcl.plain exampleWorld ignoreDefaultFlags "testdata" emptySink
    [zoneNamesVar, imageIdDecl] _ rfl rfl
    (collectUnparseds_ok exampleWorld ignoreDefaultFlags "testdata"
      (by unfold CollectorsSucceed; decide))
    (by
      intro d hd u hu
      simp only [List.mem_cons, List.mem_singleton, List.not_mem_nil, or_false] at hd
      rcases hd with e | e
      · subst e
        have hn : ((precedenceLayers exampleWorld ignoreDefaultFlags "testdata").foldl
            (fun m p => RawMap.set m p.1 p.2) fun _ => none) zoneNamesVar.Name = none := by
          decide
        rw [hn] at hu
        cases hu
      · subst e
        exact ⟨_, rfl⟩)

/-- The run with `--ignore-default` and `--var image_id=abc123` on the example
declarations: the list variable, which has no raw value, is rendered as the null
of its list type, the variable `image_id` as the string of the literal. -/
theorem rootRunE_ignore_default_example :
    rootRunE Hcl.plain exampleWorld ignoreDefaultFlags "testdata" emptySink =
      WriteAsTerraformCode Hcl.plain emptySink
        [⟨"availability_zone_names", NullVal (.List .String), .VariableParseHCL⟩,
         ⟨"image_id", StringVal "abc123", .VariableParseLiteral⟩]
        "example_organization" "example_workspace" := by
  rfl

theorem WriteAsEnvVars_null_is_empty_witness :
    Hcl.plain.Format (Tokens.Bytes (TokensForValue Hcl.plain (StringVal ""))) = "\"\"" ∧
    ∃ lines : List String,
      List.Forall₂
        (fun v l =>
          (∃ b, l = "export TF_VAR_" ++ v.Name ++ "='" ++ b ++ "'\n") ∧
          (v.Value.IsNull = true → l = "export TF_VAR_" ++ v.Name ++ "=''\n"))
        [imageIdDecl, nullStringVar] lines ∧
      (∃ k, (WriteAsEnvVars Hcl.plain emptySink [imageIdDecl, nullStringVar]).1.written =
        emptySink.written ++ lines.take k) ∧
      (emptySink.Reliable →
        (WriteAsEnvVars Hcl.plain emptySink [imageIdDecl, nullStringVar]).1.written =
          emptySink.written ++ lines ∧
        (WriteAsEnvVars Hcl.plain emptySink [imageIdDecl, nullStringVar]).2 = .returned none) :=
  ⟨by decide,
    WriteAsEnvVars_null_is_empty Hcl.plain emptySink [imageIdDecl, nullStringVar] (by decide)⟩

/-- Scenario A of the specification: a variable declared without a default is
written as the assignment of the empty string. -/
theorem WriteAsEnvVars_scenario_A :
    WriteAsEnvVars Hcl.plain emptySink [imageIdDecl] =
      (⟨["export TF_VAR_image_id=''\n"], []⟩, .returned none) := by
  decide

end Tfvar
